import Mathlib

/-!
# Verification of the SetFit span aspect extractor

Shallow embedding of `src/setfit/span/aspect_extractor.py`.

A sentence is a list of `Token`s produced by the upstream spaCy pipeline
(the external Token Source).  The core under verification is the pure
rule-based extraction algorithm: the chunk reducer
(`AspectExtractor._reduce_noun_chunk`), the sentence scanner and chunk
merger and disambiguator (all inside `AspectExtractor.__call__`), and the
`Aspect` data class with its `expand` operation.

Python-specific semantics preserved by the embedding:
* `POS_WHITELIST = ('NOUN')` is a plain *string*, so `pos_ in POS_WHITELIST`
  is a substring test (`pyStrIn`), while `pos_ not in ('X','PUNCT')` is a
  tuple membership test (list membership here).
* `doc[i]` is modelled by `tokenGet` (total, with a dummy token out of
  bounds; the program only indexes in bounds on the runs we reason about).
* spaCy's `Span.text` concatenates each token's text followed by its
  trailing whitespace, except for the last token of the span (`spanText`).
* the in-place mutation of `Aspect` objects is rendered by explicit state
  passing: `Aspect.expand` returns the new aspect together with the
  success flag; the disambiguator threads a `List Aspect × Bool` state
  where the `Bool` records whether a `logging.warning` was emitted.
-/

/-- A spaCy token as seen by the extractor: surface text (`text`),
lowercased text (`lower_`), coarse POS tag (`pos_`), trailing whitespace
(`whitespace_`) and the index of the left edge of its syntactic subtree
(`left_edge.i`). -/
structure Token where
  text : String
  lower : String
  pos : String
  ws : String
  leftEdge : Nat
  deriving Repr, DecidableEq

/-- Out-of-bounds placeholder for `doc[i]`; never reached on in-bounds runs. -/
def dummyToken : Token := ⟨"", "", "", "", 0⟩

/-- A sentence: the ordered token sequence (`Doc`). -/
abbrev Doc := List Token

/-- `doc[i]` -/
def tokenGet (doc : Doc) (i : Nat) : Token := doc.getD i dummyToken

/-- spaCy `Span.text` over the tokens of a slice: each token's text followed
by its whitespace, except that the last token's trailing whitespace is
dropped. -/
def joinTokens : List Token → String
  | [] => ""
  | [t] => t.text
  | t :: ts => t.text ++ t.ws ++ joinTokens ts

/-- `doc[start:stop].text` -/
def spanText (doc : Doc) (start stop : Nat) : String :=
  joinTokens ((doc.drop start).take (stop - start))

/-- The `Aspect` class: two slices of a doc (reduced slice and context
slice), the expansion counters, and the `ordinal` disambiguation index.
`contextStart?`/`contextStop?` are `None` when the context slice defaults
to the reduced slice, exactly as `_context_start`/`_context_stop`. -/
structure Aspect where
  doc : Doc
  start : Nat
  stop : Nat
  contextStart? : Option Nat
  contextStop? : Option Nat
  expansionLeft : Nat
  expansionRight : Nat
  ordinal : Nat
  deriving Repr, DecidableEq

/-- `Aspect.__init__(doc, start, stop, context_start, context_stop)`:
expansion counters and ordinal start at zero. -/
def mkAspect (doc : Doc) (start stop : Nat)
    (contextStart? contextStop? : Option Nat) : Aspect :=
  ⟨doc, start, stop, contextStart?, contextStop?, 0, 0, 0⟩

namespace Aspect

/-- `MAX_EXPANSION_LEFT` -/
def MAX_EXPANSION_LEFT : Nat := 2

/-- `MAX_EXPANSION_RIGHT` -/
def MAX_EXPANSION_RIGHT : Nat := 3

/-- property `context_start`: defaults to `start`. -/
def contextStart (a : Aspect) : Nat := a.contextStart?.getD a.start

/-- property `context_stop`: defaults to `stop`. -/
def contextStop (a : Aspect) : Nat := a.contextStop?.getD a.stop

/-- property `text`: the reduced slice's surface string. -/
def text (a : Aspect) : String := spanText a.doc a.start a.stop

/-- property `context`: the context slice's surface string. -/
def context (a : Aspect) : String := spanText a.doc a.contextStart a.contextStop

/-- Left growth is possible: `context_start > 0`, fewer than
`MAX_EXPANSION_LEFT` left expansions so far, and the token just left of the
context is not a comma or semicolon. -/
def leftOK (a : Aspect) : Prop :=
  0 < a.contextStart ∧ a.expansionLeft < MAX_EXPANSION_LEFT ∧
    (tokenGet a.doc (a.contextStart - 1)).text ∉ [",", ";"]

/-- Right growth is possible: `context_stop < len(doc)`, fewer than
`MAX_EXPANSION_RIGHT` right expansions so far, and the token just right of
the context is not a comma or semicolon. -/
def rightOK (a : Aspect) : Prop :=
  a.contextStop < a.doc.length ∧ a.expansionRight < MAX_EXPANSION_RIGHT ∧
    (tokenGet a.doc a.contextStop).text ∉ [",", ";"]

instance (a : Aspect) : Decidable a.leftOK := by unfold leftOK; infer_instance

instance (a : Aspect) : Decidable a.rightOK := by unfold rightOK; infer_instance

/-- `Aspect.expand`: try to grow the context by one token on the left,
else by one on the right; returns the updated aspect and the success flag
(`True` on success, `False` when neither side can grow). -/
def expand (a : Aspect) : Aspect × Bool :=
  if a.leftOK then
    ({ a with contextStart? := some (a.contextStart - 1),
              expansionLeft := a.expansionLeft + 1 }, true)
  else if a.rightOK then
    ({ a with contextStop? := some (a.contextStop + 1),
              expansionRight := a.expansionRight + 1 }, true)
  else (a, false)

end Aspect

namespace AspectExtractor

/-- `NON_NOUN_ASPECTS` -/
def NON_NOUN_ASPECTS : List String :=
  ["acted", "directed", "edited", "emotionally", "filmed", "visually", "written"]

/-- `CHUNK_EXCEPTIONS` -/
def CHUNK_EXCEPTIONS : List String :=
  ["emotional", "musical", "visual", "cinematic", "generated", "set", "special", "comic",
   "another", "other", "'s", "-", "/", ",", "and"]

/-- `CHUNK_STOP_WORDS` -/
def CHUNK_STOP_WORDS : List String := ["level", "minute", "minutes"]

/-- `MOVIE_SYNONYMS` -/
def MOVIE_SYNONYMS : List String :=
  ["entry", "flick", "film", "mess", "movie", "installment", "version"]

/-- `POS_WHITELIST = ('NOUN')`: a parenthesised *string*, not a tuple. -/
def POS_WHITELIST : String := "NOUN"

/-- `NOUN_SUBSTITUTE` -/
def NOUN_SUBSTITUTE : String := "overall"

/-- Python's `sub in s` on strings: substring containment. -/
def pyStrIn (sub s : String) : Bool :=
  s.data.tails.any (fun t => sub.data.isPrefixOf t)

/-- The noun test `pos_ in POS_WHITELIST` used at line 195 (sentence
scanner) and, negated, at line 164 (chunk reducer): a *substring* test
against the string `"NOUN"`. -/
def posInWhitelist (pos : String) : Bool := pyStrIn pos POS_WHITELIST

/-- The trailing-token validation of the chunk reducer's backward scan
(line 164): the token's lowercased text is a chunk stop word, or its POS is
outside the noun whitelist and its lowercased text is not a chunk
exception. -/
def stopCond (doc : Doc) (i : Nat) : Bool :=
  (tokenGet doc i).lower ∈ CHUNK_STOP_WORDS ||
    (!posInWhitelist (tokenGet doc i).pos &&
      (tokenGet doc i).lower ∉ CHUNK_EXCEPTIONS)

/-- The movie-synonym early exit of the backward scan (line 161): the
current token is a movie synonym and the token at `full_start` is
`"this"`. -/
def movieSynExit (doc : Doc) (fullStart i : Nat) : Bool :=
  (tokenGet doc i).lower ∈ MOVIE_SYNONYMS && (tokenGet doc fullStart).lower == "this"

/-- Lines 150–155: first token of `[start, stop)` whose POS is not in the
tuple `('X','PUNCT')` and whose lowercased text is not `"'s"`; `start` if
none is found. -/
def findFullStart (doc : Doc) (start stop : Nat) : Nat :=
  (((List.range' start (stop - start)).find? fun i =>
      (tokenGet doc i).pos ∉ ["X", "PUNCT"] && (tokenGet doc i).lower != "'s")).getD start

/-- Lines 159–175, the backward scan from `stop - 1` down to `fullStart`.
Fuel `n + 1` means the current index is `i = fullStart + n`; the initial
call uses fuel `stop - fullStart` so that the scan starts at `stop - 1`.
Returns `none` for rejection and `some reduced_start` otherwise; fuel `0`
is the loop falling off its range, leaving `reduced_start = fullStart`. -/
def reduceBack (doc : Doc) (fullStart stop : Nat) : Nat → Option Nat
  | 0 => some fullStart
  | n + 1 =>
    let i := fullStart + n
    if movieSynExit doc fullStart i then some fullStart
    else if stopCond doc i then
      if i = stop - 1 then none
      else some (if (tokenGet doc (i + 1)).text ∈ ["'s", "-", "/", ",", "and"]
                 then min (i + 3) (stop - 1) else i + 1)
    else reduceBack doc fullStart stop n

/-- `AspectExtractor._reduce_noun_chunk(doc, start, stop)`. -/
def reduceNounChunk (doc : Doc) (start stop : Nat) : Option Aspect :=
  let fullStart := findFullStart doc start stop
  match reduceBack doc fullStart stop (stop - fullStart) with
  | none => none
  | some reducedStart => some (mkAspect doc reducedStart stop (some fullStart) (some stop))

/-- Lines 186–204, the sentence scanner: the loop
`for i in range(len(doc) - 1, -1, -1)` with the `min_pos` guard.  Fuel
`i + 1` means the current loop index is `i`.  `chunk and chunk != ''` is
`chunk` not `None` and its reduced text (`Aspect.__eq__` against a string
compares `text`) nonempty. -/
def scanAux (doc : Doc) : Nat → Nat → List Aspect → List Aspect
  | 0, _, acc => acc
  | i + 1, minPos, acc =>
    if minPos ≤ i then scanAux doc i minPos acc
    else
      let word := tokenGet doc i
      if posInWhitelist word.pos then
        match reduceNounChunk doc word.leftEdge (i + 1) with
        | some chunk =>
          if chunk.text ≠ "" then scanAux doc i chunk.contextStart (chunk :: acc)
          else scanAux doc i minPos acc
        | none => scanAux doc i minPos acc
      else if word.lower ∈ NON_NOUN_ASPECTS then
        scanAux doc i i (mkAspect doc i (i + 1) none none :: acc)
      else scanAux doc i minPos acc

/-- The sentence scanner: `min_pos = len(doc)`, empty accumulator. -/
def scanSentence (doc : Doc) : List Aspect := scanAux doc doc.length doc.length []

/-- Line 209, the merge test for the adjacent pair `(aspects[i-1], aspects[i])`:
the last token of the left aspect has no trailing whitespace and the two
reduced slices are adjacent. -/
def mergeCond (doc : Doc) (a b : Aspect) : Bool :=
  ((tokenGet doc (a.stop - 1)).ws == "") && (a.stop == b.start)

/-- Lines 211–213, the combined aspect replacing a qualifying pair. -/
def mergedAspect (doc : Doc) (a b : Aspect) : Aspect :=
  mkAspect doc a.start b.stop (some a.contextStart) (some b.contextStop)

/-- One iteration of the merger loop at index `i`: acts on the pair
`(aspects[i-1], aspects[i])` when it is in bounds and qualifies.  (On runs
of the source the index is always in bounds; the guard makes the function
total.) -/
def mergeStep (doc : Doc) (as : List Aspect) (i : Nat) : List Aspect :=
  if 1 ≤ i ∧ i < as.length ∧
      mergeCond doc (as.getD (i - 1) (mkAspect doc 0 0 none none))
        (as.getD i (mkAspect doc 0 0 none none)) = true then
    as.take (i - 1) ++
      mergedAspect doc (as.getD (i - 1) (mkAspect doc 0 0 none none))
        (as.getD i (mkAspect doc 0 0 none none)) :: as.drop (i + 1)
  else as

/-- Lines 207–215, the chunk merger loop
`for i in range(len(aspects) - 1, 0, -1)`: iterations at indices
`k, k-1, ..., 1`. -/
def mergeAuxDown (doc : Doc) : Nat → List Aspect → List Aspect
  | 0, as => as
  | k + 1, as => mergeAuxDown doc k (mergeStep doc as (k + 1))

/-- The chunk merger: one full pass of the loop, starting at
`len(aspects) - 1`. -/
def mergePass (doc : Doc) (as : List Aspect) : List Aspect :=
  mergeAuxDown doc (as.length - 1) as

/-- Structural rendering of the same right-to-left pass (proved equal to
`mergePass` in `mergePass_eq_mergeAll`): process the tail first, then try
to merge the head with the head of the processed tail. -/
def mergeAll (doc : Doc) : List Aspect → List Aspect
  | [] => []
  | a :: rest =>
    match mergeAll doc rest with
    | [] => [a]
    | b :: rs => if mergeCond doc a b then mergedAspect doc a b :: rs else a :: b :: rs

/-- Remaining expansion budget of an aspect: how many more times `expand`
can possibly succeed. -/
def budget (a : Aspect) : Nat :=
  (Aspect.MAX_EXPANSION_LEFT - a.expansionLeft) +
    (Aspect.MAX_EXPANSION_RIGHT - a.expansionRight)

/-- Lines 230–237, the disambiguation `while` loop for one pair: while the
two aspects compare equal (`Aspect.__eq__` on two aspects compares
*context* texts), expand both; when neither expansion succeeds, emit the
warning and break.  The loop is fuel-bounded; any fuel of at least
`budget ai + budget aj + 1` (hence the constant `11` used by the caller)
runs it to completion, since every non-final iteration consumes budget. -/
def disambWhile (doc : Doc) : Nat → Aspect → Aspect → Aspect × Aspect × Bool
  | 0, ai, aj => (ai, aj, false)
  | fuel + 1, ai, aj =>
    if ai.context = aj.context then
      let (ai', e1) := ai.expand
      let (aj', e2) := aj.expand
      if e1 || e2 then disambWhile doc fuel ai' aj'
      else (ai, aj, true)
    else (ai, aj, false)

/-- Lines 224–237, the body of the disambiguator for one pair `(i, j)`:
if the reduced texts match, set `aspects[j].ordinal = aspects[i].ordinal + 1`
and run the expansion loop; the `Bool` component records whether a warning
has been logged. -/
def disambPair (doc : Doc) (s : List Aspect × Bool) (i j : Nat) : List Aspect × Bool :=
  let dummy := mkAspect doc 0 0 none none
  let ai := s.1.getD i dummy
  let aj := s.1.getD j dummy
  if ai.text = aj.text then
    let aj0 := { aj with ordinal := ai.ordinal + 1 }
    let r := disambWhile doc 11 ai aj0
    ((s.1.set i r.1).set j r.2.1, s.2 || r.2.2)
  else s

/-- The index pairs visited by the nested loops
`for i in range(len(aspects) - 1): for j in range(i + 1, len(aspects))`,
in visiting order. -/
def pairIndices (n : Nat) : List (Nat × Nat) :=
  (List.range n).flatMap fun i => ((List.range n).filter fun j => i < j).map fun j => (i, j)

/-- The disambiguator over a sentence's aspect list. -/
def disambiguate (doc : Doc) (as : List Aspect) : List Aspect × Bool :=
  (pairIndices as.length).foldl (fun s p => disambPair doc s p.1 p.2) (as, false)

/-- The disambiguator state after the outer loop has processed the
first-index values `0, …, m - 1`; at `m = as.length` this is
`disambiguate doc as`. -/
def disambUpTo (doc : Doc) (as : List Aspect) (m : Nat) : List Aspect × Bool :=
  (((List.range m).flatMap fun i =>
      ((List.range as.length).filter fun j => i < j).map fun j => (i, j)).foldl
    (fun t p => disambPair doc t p.1 p.2) (as, false))

/-- Lines 219–220, the placeholder substitution: one single-token aspect
`Aspect(doc, token.i, token.i + 1)` per token whose lowercased text is
`NOUN_SUBSTITUTE` (`token.i` is the token's position index in the doc). -/
def substitutes (doc : Doc) : List Aspect :=
  ((List.range doc.length).filter fun i => (tokenGet doc i).lower == NOUN_SUBSTITUTE).map
    fun i => mkAspect doc i (i + 1) none none

/-- Lines 183–239, the per-sentence pipeline: scanner, merger, then either
the placeholder substitution (empty result) or the disambiguator.  The
`Bool` is the warning flag (always `false` on the substitution branch: the
disambiguator is not run there). -/
def extractSentence (doc : Doc) : List Aspect × Bool :=
  let aspects := mergePass doc (scanSentence doc)
  if aspects.length = 0 then (substitutes doc, false)
  else disambiguate doc aspects

/-- `AspectExtractor.__call__` over a batch, one sentence at a time. -/
def extract (docs : List Doc) : List (List Aspect × Bool) :=
  docs.map extractSentence

/-- The Token Source contract used by the invariants: each token's left
edge is at or before the token itself (it is the leftmost index of the
subtree the token anchors). -/
def docOK (doc : Doc) : Prop :=
  ∀ i, i < doc.length → (tokenGet doc i).leftEdge ≤ i

instance (doc : Doc) : Decidable (docOK doc) := by unfold docOK; infer_instance

/-- The bounds invariant of the spec:
`0 ≤ context_start ≤ start ≤ stop ≤ context_stop ≤ len(sentence)`
(the `0 ≤` part is trivial over `Nat`). -/
def wfAspect (a : Aspect) : Prop :=
  a.contextStart ≤ a.start ∧ a.start ≤ a.stop ∧ a.stop ≤ a.contextStop ∧
    a.contextStop ≤ a.doc.length

instance (a : Aspect) : Decidable (wfAspect a) := by unfold wfAspect; infer_instance

/-- The context-disjointness relation maintained along a scan: each
aspect's context ends before the next one's context begins. -/
def ctxLe (a b : Aspect) : Prop := a.contextStop ≤ b.contextStart

/-- The scanner-loop invariant, as a predicate on an aspect list: all
aspects well-formed on `doc` with zero ordinal and counters, contexts
pairwise disjoint in order. -/
def scanInv (doc : Doc) (l : List Aspect) : Prop :=
  (∀ a ∈ l, wfAspect a ∧ a.doc = doc ∧ a.ordinal = 0 ∧
    a.expansionLeft = 0 ∧ a.expansionRight = 0) ∧ List.Chain' ctxLe l

end AspectExtractor

/-- Iterated `expand`: the aspect after `n` calls of `Aspect.expand`
(successful or not), modelling an aspect's lifetime under the
disambiguator. -/
def expandIter (a : Aspect) : Nat → Aspect
  | 0 => a
  | n + 1 => (expandIter a n).expand.1

/-- Placeholder aspect used as the default of `List.getD` in statements. -/
def dummyA : Aspect := mkAspect [] 0 0 none none

/-- Token constructor shorthand for the concrete example sentences. -/
def tk (text lower pos ws : String) (leftEdge : Nat) : Token :=
  ⟨text, lower, pos, ws, leftEdge⟩

/-- Example sentence "this long movie": a noun chunk headed by the
determiner `this` and ending in a movie synonym. -/
def dThisMovie : Doc :=
  [tk "this" "this" "DET" " " 0, tk "long" "long" "ADJ" " " 0,
   tk "movie" "movie" "NOUN" " " 0]

/-- Example chunk consisting of a single adjective: rejected by the chunk
reducer. -/
def dReject : Doc := [tk "great" "great" "ADJ" " " 0]

/-- Example sentence "Overall great": no noun and no whitelisted non-noun
token, but one occurrence of the placeholder word. -/
def dOverall : Doc :=
  [tk "Overall" "overall" "ADV" " " 0, tk "great" "great" "ADJ" " " 1]

/-- Example sentence `a x q , x , a x z` with three occurrences of the
noun `x`.  The middle occurrence is fenced by commas on both sides, so its
context can never expand; during disambiguation the pair `(1, 2)` then
re-expands the third occurrence's context to `"a x"`, which is exactly the
first occurrence's context — after the disambiguator finishes, aspects 0
and 2 have equal reduced texts *and* equal context texts while no warning
was ever logged. -/
def dRecollide : Doc :=
  [tk "a" "a" "ADJ" " " 0, tk "x" "x" "NOUN" " " 1, tk "q" "q" "ADJ" " " 2,
   tk "," "," "PUNCT" " " 3, tk "x" "x" "NOUN" " " 4, tk "," "," "PUNCT" " " 5,
   tk "a" "a" "ADJ" " " 6, tk "x" "x" "NOUN" " " 7, tk "z" "z" "ADJ" " " 8]

/-- Example two-token sentence `x x` whose two single-token aspects have
equal reduced texts. -/
def dPair : Doc := [tk "x" "x" "NOUN" " " 0, tk "x" "x" "NOUN" " " 1]

/-- The two aspects the scanner produces on `dPair`. -/
def asPair : List Aspect :=
  [mkAspect dPair 0 1 (some 0) (some 1), mkAspect dPair 1 2 (some 1) (some 2)]

/-! ## Basic lemmas about `Aspect.expand` -/

namespace Aspect

theorem expand_of_leftOK (a : Aspect) (h : a.leftOK) :
    a.expand = ({ a with contextStart? := some (a.contextStart - 1),
                         expansionLeft := a.expansionLeft + 1 }, true) := by
  unfold expand; rw [if_pos h]

theorem expand_of_rightOK (a : Aspect) (h1 : ¬a.leftOK) (h2 : a.rightOK) :
    a.expand = ({ a with contextStop? := some (a.contextStop + 1),
                         expansionRight := a.expansionRight + 1 }, true) := by
  unfold expand; rw [if_neg h1, if_pos h2]

theorem expand_of_blocked (a : Aspect) (h1 : ¬a.leftOK) (h2 : ¬a.rightOK) :
    a.expand = (a, false) := by
  unfold expand; rw [if_neg h1, if_neg h2]

/-- `expand` never changes the doc, the reduced slice or the ordinal. -/
theorem expand_preserves (a : Aspect) :
    a.expand.1.doc = a.doc ∧ a.expand.1.start = a.start ∧
      a.expand.1.stop = a.stop ∧ a.expand.1.ordinal = a.ordinal := by
  unfold expand
  split
  · exact ⟨rfl, rfl, rfl, rfl⟩
  · split
    · exact ⟨rfl, rfl, rfl, rfl⟩
    · exact ⟨rfl, rfl, rfl, rfl⟩

theorem expand_text (a : Aspect) : a.expand.1.text = a.text := by
  obtain ⟨h1, h2, h3, _⟩ := a.expand_preserves
  unfold text
  rw [h1, h2, h3]

theorem expand_expansionLeft_le (a : Aspect)
    (h : a.expansionLeft ≤ MAX_EXPANSION_LEFT) :
    a.expand.1.expansionLeft ≤ MAX_EXPANSION_LEFT := by
  unfold expand
  split
  · next hl => exact hl.2.1
  · split
    · exact h
    · exact h

theorem expand_expansionRight_le (a : Aspect)
    (h : a.expansionRight ≤ MAX_EXPANSION_RIGHT) :
    a.expand.1.expansionRight ≤ MAX_EXPANSION_RIGHT := by
  unfold expand
  split
  · exact h
  · split
    · next hl hr => exact hr.2.1
    · exact h

theorem expand_wf (a : Aspect) (h : AspectExtractor.wfAspect a) :
    AspectExtractor.wfAspect a.expand.1 := by
  obtain ⟨h1, h2, h3, h4⟩ := h
  unfold expand
  split
  · next hl =>
    refine ⟨?_, h2, h3, h4⟩
    show (some (a.contextStart - 1)).getD _ ≤ a.start
    exact le_trans (Nat.sub_le _ _) h1
  · split
    · next hl hr =>
      refine ⟨h1, h2, ?_, ?_⟩
      · show a.stop ≤ (some (a.contextStop + 1)).getD _
        exact le_trans h3 (Nat.le_succ _)
      · show (some (a.contextStop + 1)).getD _ ≤ a.doc.length
        exact hr.1
    · exact ⟨h1, h2, h3, h4⟩

theorem expand_left_counters (a : Aspect) (hl : a.leftOK) :
    a.expand.1.expansionLeft = a.expansionLeft + 1 ∧
      a.expand.1.expansionRight = a.expansionRight := by
  rw [expand_of_leftOK a hl]; exact ⟨rfl, rfl⟩

theorem expand_right_counters (a : Aspect) (hl : ¬a.leftOK) (hr : a.rightOK) :
    a.expand.1.expansionLeft = a.expansionLeft ∧
      a.expand.1.expansionRight = a.expansionRight + 1 := by
  rw [expand_of_rightOK a hl hr]; exact ⟨rfl, rfl⟩

theorem expand_budget_lt (a : Aspect) (h : a.expand.2 = true) :
    AspectExtractor.budget a.expand.1 < AspectExtractor.budget a := by
  by_cases hl : a.leftOK
  · obtain ⟨c1, c2⟩ := expand_left_counters a hl
    have hcap := hl.2.1
    unfold AspectExtractor.budget
    rw [c1, c2]
    unfold MAX_EXPANSION_LEFT MAX_EXPANSION_RIGHT at *
    omega
  · by_cases hr : a.rightOK
    · obtain ⟨c1, c2⟩ := expand_right_counters a hl hr
      have hcap := hr.2.1
      unfold AspectExtractor.budget
      rw [c1, c2]
      unfold MAX_EXPANSION_LEFT MAX_EXPANSION_RIGHT at *
      omega
    · rw [expand_of_blocked a hl hr] at h
      simp at h

theorem expand_false_iff (a : Aspect) :
    a.expand.2 = false ↔ ¬a.leftOK ∧ ¬a.rightOK := by
  unfold expand
  constructor
  · intro h
    split at h
    · simp at h
    · split at h
      · simp at h
      · next h1 h2 => exact ⟨h1, h2⟩
  · rintro ⟨h1, h2⟩
    rw [if_neg h1, if_neg h2]

theorem expand_false_state (a : Aspect) (h : a.expand.2 = false) :
    a.expand.1 = a := by
  obtain ⟨h1, h2⟩ := (expand_false_iff a).1 h
  rw [expand_of_blocked a h1 h2]

end Aspect

/-- **C7.** Over an aspect's lifetime, `expand` succeeds at most
`MAX_EXPANSION_LEFT = 2` times on the left and `MAX_EXPANSION_RIGHT = 3`
times on the right (the counters, which count exactly the successful
growths, never pass the caps); every successful call grows the context by
exactly one token, on the left when the left side is still permitted and
otherwise on the right; a context boundary never moves across a token
whose text is `","` or `";"` (such a token blocks its side, as the
`leftOK`/`rightOK` conditions show); and `expand` returns `False` exactly
when neither side can grow. -/
theorem expand_caps_and_behavior :
    (∀ (a : Aspect) (n : Nat),
        a.expansionLeft ≤ Aspect.MAX_EXPANSION_LEFT →
        a.expansionRight ≤ Aspect.MAX_EXPANSION_RIGHT →
        (expandIter a n).expansionLeft ≤ Aspect.MAX_EXPANSION_LEFT ∧
          (expandIter a n).expansionRight ≤ Aspect.MAX_EXPANSION_RIGHT) ∧
    (∀ a : Aspect, a.expand.2 = true →
        (a.leftOK ∧ a.expand.1.contextStart + 1 = a.contextStart ∧
            a.expand.1.contextStop = a.contextStop ∧
            a.expand.1.expansionLeft = a.expansionLeft + 1) ∨
          (¬a.leftOK ∧ a.rightOK ∧ a.expand.1.contextStop = a.contextStop + 1 ∧
            a.expand.1.contextStart = a.contextStart ∧
            a.expand.1.expansionRight = a.expansionRight + 1)) ∧
    (∀ a : Aspect, a.leftOK →
        (tokenGet a.doc (a.contextStart - 1)).text ≠ "," ∧
          (tokenGet a.doc (a.contextStart - 1)).text ≠ ";") ∧
    (∀ a : Aspect, a.rightOK →
        (tokenGet a.doc a.contextStop).text ≠ "," ∧
          (tokenGet a.doc a.contextStop).text ≠ ";") ∧
    (∀ a : Aspect, a.expand.2 = false ↔ ¬a.leftOK ∧ ¬a.rightOK) := by
  refine ⟨?_, ?_, ?_, ?_, Aspect.expand_false_iff⟩
  · intro a n h1 h2
    induction n with
    | zero => exact ⟨h1, h2⟩
    | succ n ih =>
      exact ⟨Aspect.expand_expansionLeft_le _ ih.1,
             Aspect.expand_expansionRight_le _ ih.2⟩
  · intro a h
    by_cases hl : a.leftOK
    · left
      rw [Aspect.expand_of_leftOK a hl]
      refine ⟨hl, ?_, rfl, rfl⟩
      show (some (a.contextStart - 1)).getD _ + 1 = a.contextStart
      have := hl.1
      simp only [Option.getD_some]
      omega
    · by_cases hr : a.rightOK
      · right
        rw [Aspect.expand_of_rightOK a hl hr]
        exact ⟨hl, hr, rfl, rfl, rfl⟩
      · rw [Aspect.expand_of_blocked a hl hr] at h
        simp at h
  · intro a h
    have h3 := h.2.2
    simp only [List.mem_cons] at h3
    push_neg at h3
    exact ⟨h3.1, h3.2.1⟩
  · intro a h
    have h3 := h.2.2
    simp only [List.mem_cons] at h3
    push_neg at h3
    exact ⟨h3.1, h3.2.1⟩

/-- Witness for `expand_caps_and_behavior`: the caps hold along seven
`expand` calls on a concrete aspect. -/
theorem expand_caps_and_behavior_witness :
    (expandIter (mkAspect dPair 0 1 (some 0) (some 1)) 7).expansionLeft ≤
        Aspect.MAX_EXPANSION_LEFT ∧
      (expandIter (mkAspect dPair 0 1 (some 0) (some 1)) 7).expansionRight ≤
        Aspect.MAX_EXPANSION_RIGHT :=
  expand_caps_and_behavior.1 (mkAspect dPair 0 1 (some 0) (some 1)) 7
    (by decide) (by decide)

/-! ## The POS whitelist is a string: substring membership (C9) -/

namespace AspectExtractor

theorem pyStrIn_iff (sub s : String) :
    pyStrIn sub s = true ↔ sub.data <:+: s.data := by
  unfold pyStrIn
  rw [List.any_eq_true]
  constructor
  · rintro ⟨t, ht, hp⟩
    rw [List.mem_tails] at ht
    rw [List.isPrefixOf_iff_prefix] at hp
    exact List.infix_iff_prefix_suffix.2 ⟨t, hp, ht⟩
  · intro h
    obtain ⟨t, hp, ht⟩ := List.infix_iff_prefix_suffix.1 h
    exact ⟨t, (List.mem_tails _ _).2 ht, List.isPrefixOf_iff_prefix.2 hp⟩

end AspectExtractor

/-- **C9.** Because `POS_WHITELIST` is the single string `"NOUN"` and
membership is Python's `in` on a string, the noun test passes exactly when
the POS tag is a contiguous substring of `"NOUN"` — including `""`, `"N"`,
`"NO"`, `"UN"` and `"OUN"` — and not only when the tag equals `"NOUN"`
(`"PROPN"`, in particular, fails).  The same `posInWhitelist` is the test
applied by the sentence scanner (line 195) and, negated, inside the chunk
reducer's `stopCond` (line 164): concretely, the scanner accepts a
single-token sentence tagged `"UN"` as a noun chunk, and the reducer's
validation lets a token tagged `"OUN"` pass. -/
theorem pos_whitelist_substring :
    (∀ pos : String,
        AspectExtractor.posInWhitelist pos = true ↔
          pos.data <:+: AspectExtractor.POS_WHITELIST.data) ∧
    AspectExtractor.posInWhitelist "" = true ∧
    AspectExtractor.posInWhitelist "N" = true ∧
    AspectExtractor.posInWhitelist "NO" = true ∧
    AspectExtractor.posInWhitelist "UN" = true ∧
    AspectExtractor.posInWhitelist "OUN" = true ∧
    AspectExtractor.posInWhitelist "NOUN" = true ∧
    AspectExtractor.posInWhitelist "PROPN" = false ∧
    AspectExtractor.scanSentence [tk "cat" "cat" "UN" " " 0] =
      [mkAspect [tk "cat" "cat" "UN" " " 0] 0 1 (some 0) (some 1)] ∧
    AspectExtractor.stopCond [tk "cat" "cat" "OUN" " " 0] 0 = false :=
  ⟨fun pos => AspectExtractor.pyStrIn_iff pos AspectExtractor.POS_WHITELIST,
   by decide, by decide, by decide, by decide, by decide, by decide, by decide,
   by decide, by decide⟩

/-! ## The chunk reducer: rejection (C5) and the this-movie pattern (C8) -/

namespace AspectExtractor

/-- Unfolding equation of `reduceBack` at successor fuel, with the `let`
reduced. -/
theorem reduceBack_succ (doc : Doc) (fullStart stop n : Nat) :
    reduceBack doc fullStart stop (n + 1) =
      (if movieSynExit doc fullStart (fullStart + n) = true then some fullStart
       else if stopCond doc (fullStart + n) = true then
         (if fullStart + n = stop - 1 then none
          else some (if (tokenGet doc (fullStart + n + 1)).text ∈ ["'s", "-", "/", ",", "and"]
                     then min (fullStart + n + 3) (stop - 1) else fullStart + n + 1))
       else reduceBack doc fullStart stop n) := rfl

/-- Unfolding equation of `reduceNounChunk`, with the `let` reduced. -/
theorem reduceNounChunk_eq (doc : Doc) (start stop : Nat) :
    reduceNounChunk doc start stop =
      (match reduceBack doc (findFullStart doc start stop) stop
          (stop - findFullStart doc start stop) with
       | none => none
       | some reducedStart =>
         some (mkAspect doc reducedStart stop
           (some (findFullStart doc start stop)) (some stop))) := rfl

/-- The backward scan can only reject at its very first index `stop - 1`:
with fuel reaching at most index `stop - 2` it always returns a start. -/
theorem reduceBack_isSome_below (doc : Doc) (fullStart stop : Nat) :
    ∀ n, fullStart + n ≤ stop - 1 → reduceBack doc fullStart stop n ≠ none := by
  intro n
  induction n with
  | zero => intro _ h; simp [reduceBack] at h
  | succ n ih =>
    intro h
    unfold reduceBack
    by_cases h1 : movieSynExit doc fullStart (fullStart + n) = true
    · simp [h1]
    · by_cases h2 : stopCond doc (fullStart + n) = true
      · have h3 : ¬(fullStart + n = stop - 1) := by omega
        simp [h1, h2, h3]
      · simpa [h1, h2] using ih (by omega)

theorem findFullStart_lt (doc : Doc) (start stop : Nat) (h : start < stop) :
    findFullStart doc start stop < stop := by
  unfold findFullStart
  cases hf : (List.range' start (stop - start)).find? fun i =>
      (tokenGet doc i).pos ∉ ["X", "PUNCT"] && (tokenGet doc i).lower != "'s" with
  | none => simpa using h
  | some x =>
    have hx := List.mem_of_find?_eq_some hf
    rw [List.mem_range'_1] at hx
    simpa using (by omega : x < stop)

/-- **C5.** On a non-empty range `[start, stop)`, the chunk reducer
returns no aspect (rejects) **iff** at the last token `stop - 1` the
movie-synonym/`this` early exit does not fire and the trailing-token
validation `stopCond` holds (the token's lowercased text is a chunk stop
word, or its POS is outside the noun whitelist and its lowercased text is
not a chunk exception).  Rejection is the `none` value of a total
function — never an exception — and in every other case an aspect is
returned. -/
theorem reducer_rejection_iff (doc : Doc) (start stop : Nat) (h : start < stop) :
    reduceNounChunk doc start stop = none ↔
      movieSynExit doc (findFullStart doc start stop) (stop - 1) = false ∧
        stopCond doc (stop - 1) = true := by
  have hlt : findFullStart doc start stop < stop := findFullStart_lt doc start stop h
  rw [reduceNounChunk_eq]
  set fs := findFullStart doc start stop with hfs
  have hfuel : stop - fs = (stop - 1 - fs) + 1 := by omega
  rw [hfuel, reduceBack_succ]
  have hi : fs + (stop - 1 - fs) = stop - 1 := by omega
  rw [hi]
  by_cases h1 : movieSynExit doc fs (stop - 1) = true
  · simp [h1]
  · by_cases h2 : stopCond doc (stop - 1) = true
    · simp [h1, h2]
    · have h3 := reduceBack_isSome_below doc fs stop (stop - 1 - fs) (by omega)
      cases h4 : reduceBack doc fs stop (stop - 1 - fs) with
      | none => exact absurd h4 h3
      | some rs => simp [h1, h2, h4]

end AspectExtractor

/-- Witness for `reducer_rejection_iff`: the single-token chunk `"great"`
(an adjective) is rejected by the reducer. -/
theorem reducer_rejection_iff_witness :
    AspectExtractor.reduceNounChunk dReject 0 1 = none :=
  (AspectExtractor.reducer_rejection_iff dReject 0 1 (by decide)).2
    ⟨by decide, by decide⟩

namespace AspectExtractor

/-- If from index `stop - 1` down to `k` every token either triggers the
movie-synonym exit or passes validation, and token `k` triggers the exit,
the scan returns `fullStart`. -/
theorem reduceBack_syn_exit (doc : Doc) (fullStart stop k : Nat)
    (hk : fullStart ≤ k)
    (hsyn : movieSynExit doc fullStart k = true)
    (hpass : ∀ i, k < i → i < stop → stopCond doc i = false) :
    ∀ n, k ≤ fullStart + n → fullStart + n < stop →
      reduceBack doc fullStart stop (n + 1) = some fullStart := by
  intro n
  induction n with
  | zero =>
    intro h1 h2
    have : k = fullStart := by omega
    unfold reduceBack
    rw [this] at hsyn
    simp [hsyn]
  | succ n ih =>
    intro h1 h2
    rw [reduceBack_succ]
    by_cases hs : movieSynExit doc fullStart (fullStart + (n + 1)) = true
    · simp [hs]
    · have hne : k ≠ fullStart + (n + 1) := fun he => hs (he ▸ hsyn)
      have hklt : k < fullStart + (n + 1) := by omega
      have hstop := hpass _ hklt h2
      rw [if_neg hs, if_neg (by simp [hstop])]
      exact ih (by omega) (by omega)

/-- **C8.** If the token at `full_start` is the determiner `"this"` and
the backward scan reaches a token `k` of the movie-synonym set (every
index above `k` passing validation), the scan stops with
`reduced_start = full_start`: the whole span from `full_start` to `stop`
is kept as the reduced span. -/
theorem this_movie_preserved (doc : Doc) (start stop k : Nat)
    (h : start < stop)
    (hk1 : findFullStart doc start stop ≤ k) (hk2 : k < stop)
    (hthis : (tokenGet doc (findFullStart doc start stop)).lower = "this")
    (hsyn : (tokenGet doc k).lower ∈ MOVIE_SYNONYMS)
    (hpass : ∀ i, k < i → i < stop → stopCond doc i = false) :
    reduceNounChunk doc start stop =
      some (mkAspect doc (findFullStart doc start stop) stop
        (some (findFullStart doc start stop)) (some stop)) := by
  have hlt : findFullStart doc start stop < stop := findFullStart_lt doc start stop h
  rw [reduceNounChunk_eq]
  set fs := findFullStart doc start stop with hfs
  have hsynb : movieSynExit doc fs k = true := by
    unfold movieSynExit
    rw [hthis]
    simp [hsyn]
  have hfuel : stop - fs = (stop - 1 - fs) + 1 := by omega
  rw [hfuel, reduceBack_syn_exit doc fs stop k hk1 hsynb hpass (stop - 1 - fs)
    (by omega) (by omega)]

end AspectExtractor

/-- Witness for `this_movie_preserved`: on "this long movie" the reducer
keeps the whole three-token span. -/
theorem this_movie_preserved_witness :
    AspectExtractor.reduceNounChunk dThisMovie 0 3 =
      some (mkAspect dThisMovie 0 3 (some 0) (some 3)) :=
  AspectExtractor.this_movie_preserved dThisMovie 0 3 2 (by decide) (by decide)
    (by decide) (by decide) (by decide)
    (fun i h1 h2 => absurd (by omega : (3 : Nat) ≤ 2) (by decide))

/-! ## The chunk merger: equivalence with the structural pass, and
idempotence (C6) -/

namespace AspectExtractor

/-- Unfolding equation of `mergeAll` on a cons cell. -/
theorem mergeAll_cons_eq (doc : Doc) (a : Aspect) (rest : List Aspect) :
    mergeAll doc (a :: rest) =
      (match mergeAll doc rest with
       | [] => [a]
       | b :: rs => if mergeCond doc a b then mergedAspect doc a b :: rs
                    else a :: b :: rs) := rfl

theorem mergeAll_cons_nil (doc : Doc) (a : Aspect) (rest : List Aspect)
    (hr : mergeAll doc rest = []) : mergeAll doc (a :: rest) = [a] := by
  rw [mergeAll_cons_eq, hr]

theorem mergeAll_cons_cons (doc : Doc) (a : Aspect) (rest : List Aspect)
    (b : Aspect) (rs : List Aspect) (hr : mergeAll doc rest = b :: rs) :
    mergeAll doc (a :: rest) =
      if mergeCond doc a b then mergedAspect doc a b :: rs else a :: b :: rs := by
  rw [mergeAll_cons_eq, hr]

/-- Iterations at inner indices shift over a cons. -/
theorem mergeStep_cons (doc : Doc) (a : Aspect) (as : List Aspect) (k : Nat)
    (hk : 1 ≤ k) :
    mergeStep doc (a :: as) (k + 1) = a :: mergeStep doc as k := by
  unfold mergeStep
  have e1 : (a :: as).getD (k + 1 - 1) (mkAspect doc 0 0 none none) =
      as.getD (k - 1) (mkAspect doc 0 0 none none) := by
    have : k + 1 - 1 = (k - 1) + 1 := by omega
    rw [this]
    rfl
  have e2 : (a :: as).getD (k + 1) (mkAspect doc 0 0 none none) =
      as.getD k (mkAspect doc 0 0 none none) := rfl
  rw [e1, e2]
  by_cases hc : 1 ≤ k ∧ k < as.length ∧
      mergeCond doc (as.getD (k - 1) (mkAspect doc 0 0 none none))
        (as.getD k (mkAspect doc 0 0 none none)) = true
  · rw [if_pos ⟨by omega, by simpa using hc.2.1, hc.2.2⟩, if_pos hc]
    have e3 : (a :: as).take (k + 1 - 1) = a :: as.take (k - 1) := by
      have : k + 1 - 1 = (k - 1) + 1 := by omega
      rw [this]
      rfl
    have e4 : (a :: as).drop (k + 1 + 1) = as.drop (k + 1) := rfl
    rw [e3, e4]
    rfl
  · rw [if_neg ?_, if_neg hc]
    intro hcon
    exact hc ⟨hk, by simpa using hcon.2.1, hcon.2.2⟩

/-- The last iteration, at index `1`, merges the head pair when it
qualifies. -/
theorem mergeStep_one (doc : Doc) (a : Aspect) (l : List Aspect) :
    mergeStep doc (a :: l) 1 =
      (match l with
       | [] => [a]
       | b :: rs => if mergeCond doc a b then mergedAspect doc a b :: rs
                    else a :: b :: rs) := by
  cases l with
  | nil => rfl
  | cons b rs =>
    show mergeStep doc (a :: b :: rs) 1 =
      if mergeCond doc a b then mergedAspect doc a b :: rs else a :: b :: rs
    unfold mergeStep
    by_cases hc : mergeCond doc a b = true
    · rw [if_pos ⟨le_refl 1, by simp, by simpa using hc⟩, if_pos hc]
      rfl
    · rw [if_neg ?_, if_neg hc]
      intro hcon
      exact hc (by simpa using hcon.2.2)

/-- Running iterations `k + 1, …, 1` on `a :: as` is: run `k, …, 1` on
`as`, then the head iteration. -/
theorem mergeAuxDown_cons (doc : Doc) :
    ∀ (k : Nat) (a : Aspect) (as : List Aspect),
      mergeAuxDown doc (k + 1) (a :: as) =
        mergeStep doc (a :: mergeAuxDown doc k as) 1 := by
  intro k
  induction k with
  | zero => intro a as; rfl
  | succ k ih =>
    intro a as
    show mergeAuxDown doc (k + 1) (mergeStep doc (a :: as) (k + 2)) = _
    rw [mergeStep_cons doc a as (k + 1) (by omega), ih]
    rfl

/-- The merger loop equals the structural right-to-left pass. -/
theorem mergePass_eq_mergeAll (doc : Doc) :
    ∀ as : List Aspect, mergePass doc as = mergeAll doc as := by
  intro as
  induction as with
  | nil => rfl
  | cons a rest ih =>
    cases rest with
    | nil => rfl
    | cons b rs =>
      show mergeAuxDown doc (rs.length + 1) (a :: b :: rs) = mergeAll doc (a :: b :: rs)
      rw [mergeAuxDown_cons doc rs.length a (b :: rs)]
      have h2 : mergeAuxDown doc rs.length (b :: rs) = mergePass doc (b :: rs) := rfl
      rw [h2, ih, mergeStep_one]
      cases hr : mergeAll doc (b :: rs) with
      | nil => rw [mergeAll_cons_nil doc a (b :: rs) hr]
      | cons c cs => rw [mergeAll_cons_cons doc a (b :: rs) c cs hr]

/-- A merged pair still fails the merge test against the element to its
right whenever its right part did. -/
theorem mergeCond_merged (doc : Doc) (a b y : Aspect) :
    mergeCond doc (mergedAspect doc a b) y = mergeCond doc b y := rfl

/-- After one merger pass, no adjacent pair qualifies any more. -/
theorem mergeAll_no_qualifying (doc : Doc) :
    ∀ as : List Aspect,
      List.Chain' (fun a b => mergeCond doc a b = false) (mergeAll doc as) := by
  intro as
  induction as with
  | nil => simp [mergeAll]
  | cons a rest ih =>
    cases hr : mergeAll doc rest with
    | nil => rw [mergeAll_cons_nil doc a rest hr]; simp
    | cons b rs =>
      rw [mergeAll_cons_cons doc a rest b rs hr]
      rw [hr] at ih
      by_cases hc : mergeCond doc a b = true
      · rw [if_pos hc]
        rw [List.chain'_cons'] at ih ⊢
        refine ⟨?_, ih.2⟩
        intro y hy
        rw [mergeCond_merged]
        exact ih.1 y hy
      · rw [if_neg hc]
        rw [List.chain'_cons]
        exact ⟨by simpa using hc, ih⟩

/-- A list with no qualifying adjacent pair is a fixed point of the
merger pass. -/
theorem mergeAll_of_no_qualifying (doc : Doc) :
    ∀ as : List Aspect,
      List.Chain' (fun a b => mergeCond doc a b = false) as → mergeAll doc as = as := by
  intro as
  induction as with
  | nil => intro _; rfl
  | cons a rest ih =>
    intro h
    cases rest with
    | nil => rfl
    | cons b rs =>
      rw [List.chain'_cons] at h
      rw [mergeAll_cons_cons doc a (b :: rs) b rs (ih h.2)]
      rw [if_neg (by simp [h.1])]

end AspectExtractor

/-- **C6.** The chunk merger is idempotent: a second pass over its own
output returns it unchanged, because after one pass no adjacent pair still
satisfies the merge condition (left aspect's last token has no trailing
whitespace and the left aspect's `stop` equals the right aspect's
`start`). -/
theorem merger_idempotent (doc : Doc) (as : List Aspect) :
    AspectExtractor.mergePass doc (AspectExtractor.mergePass doc as) =
        AspectExtractor.mergePass doc as ∧
      List.Chain' (fun a b => AspectExtractor.mergeCond doc a b = false)
        (AspectExtractor.mergePass doc as) := by
  rw [AspectExtractor.mergePass_eq_mergeAll, AspectExtractor.mergePass_eq_mergeAll]
  exact ⟨AspectExtractor.mergeAll_of_no_qualifying doc _
          (AspectExtractor.mergeAll_no_qualifying doc as),
        AspectExtractor.mergeAll_no_qualifying doc as⟩

/-! ## Bounds invariants of the chunk reducer and the sentence scanner -/

namespace AspectExtractor

/-- The reduced start computed by the backward scan lies between
`fullStart` and `stop`. -/
theorem reduceBack_bounds (doc : Doc) (fullStart stop : Nat) :
    ∀ n rs, fullStart + n ≤ stop → reduceBack doc fullStart stop n = some rs →
      fullStart ≤ rs ∧ rs ≤ stop := by
  intro n
  induction n with
  | zero =>
    intro rs hle he
    simp only [reduceBack, Option.some.injEq] at he
    omega
  | succ n ih =>
    intro rs hle he
    rw [reduceBack_succ] at he
    by_cases h1 : movieSynExit doc fullStart (fullStart + n) = true
    · rw [if_pos h1] at he
      simp only [Option.some.injEq] at he
      omega
    · rw [if_neg h1] at he
      by_cases h2 : stopCond doc (fullStart + n) = true
      · rw [if_pos h2] at he
        by_cases h3 : fullStart + n = stop - 1
        · rw [if_pos h3] at he; exact absurd he (by simp)
        · rw [if_neg h3] at he
          simp only [Option.some.injEq] at he
          by_cases h4 : (tokenGet doc (fullStart + n + 1)).text ∈ ["'s", "-", "/", ",", "and"]
          · rw [if_pos h4] at he; omega
          · rw [if_neg h4] at he; omega
      · rw [if_neg h2] at he
        exact ih rs (by omega) he

/-- Every accepted chunk is well-formed: the reduced slice sits inside the
context slice `[full_start, stop)`, inside the doc; counters and ordinal
are zero. -/
theorem reduceNounChunk_wf (doc : Doc) (start stop : Nat)
    (h1 : start < stop) (h2 : stop ≤ doc.length) :
    ∀ a, reduceNounChunk doc start stop = some a →
      wfAspect a ∧ a.doc = doc ∧ a.contextStart < stop ∧ a.contextStop = stop ∧
        a.stop = stop ∧ a.ordinal = 0 ∧ a.expansionLeft = 0 ∧ a.expansionRight = 0 := by
  intro a he
  rw [reduceNounChunk_eq] at he
  have hfs : findFullStart doc start stop < stop := findFullStart_lt doc start stop h1
  cases hb : reduceBack doc (findFullStart doc start stop) stop
      (stop - findFullStart doc start stop) with
  | none => rw [hb] at he; exact absurd he (by simp)
  | some rs =>
    rw [hb] at he
    simp only [Option.some.injEq] at he
    obtain ⟨hrs1, hrs2⟩ := reduceBack_bounds doc (findFullStart doc start stop) stop
      (stop - findFullStart doc start stop) rs (by omega) hb
    subst he
    exact ⟨⟨hrs1, hrs2, le_refl stop, h2⟩, rfl, hfs, rfl, rfl, rfl, rfl, rfl⟩

/-- Invariant of the scanner loop. -/
theorem scanAux_inv (doc : Doc) (hdoc : docOK doc) :
    ∀ (fuel minPos : Nat) (acc : List Aspect), fuel ≤ doc.length →
      scanInv doc acc →
      (∀ a ∈ acc, minPos ≤ a.contextStart) →
      scanInv doc (scanAux doc fuel minPos acc) := by
  intro fuel
  induction fuel with
  | zero => intro minPos acc _ hacc _; exact hacc
  | succ i ih =>
    intro minPos acc hfuel hinv hmin
    obtain ⟨hacc, hchain⟩ := hinv
    rw [scanAux]
    by_cases hguard : minPos ≤ i
    · rw [if_pos hguard]
      exact ih minPos acc (by omega) ⟨hacc, hchain⟩ hmin
    · rw [if_neg hguard]
      have hilt : i < doc.length := by omega
      have himin : i + 1 ≤ minPos := by omega
      by_cases hnoun : posInWhitelist (tokenGet doc i).pos = true
      · rw [if_pos hnoun]
        cases hch : reduceNounChunk doc (tokenGet doc i).leftEdge (i + 1) with
        | none =>
          show scanInv doc (scanAux doc i minPos acc)
          exact ih minPos acc (by omega) ⟨hacc, hchain⟩ hmin
        | some chunk =>
          show scanInv doc (if chunk.text ≠ "" then
            scanAux doc i chunk.contextStart (chunk :: acc) else scanAux doc i minPos acc)
          by_cases htext : chunk.text ≠ ""
          · rw [if_pos htext]
            have hred := reduceNounChunk_wf doc (tokenGet doc i).leftEdge (i + 1)
              (by have := hdoc i hilt; omega) (by omega) chunk hch
            obtain ⟨hwf, hdc, hcslt, hcs, hst, ho, hel, her⟩ := hred
            refine ih chunk.contextStart (chunk :: acc) (by omega) ⟨?_, ?_⟩ ?_
            · intro a ha
              rcases List.mem_cons.1 ha with rfl | ha
              · exact ⟨hwf, hdc, ho, hel, her⟩
              · exact hacc a ha
            · rw [List.chain'_cons']
              refine ⟨?_, hchain⟩
              intro y hy
              have hmem : y ∈ acc := List.mem_of_mem_head? hy
              show chunk.contextStop ≤ y.contextStart
              rw [hcs]
              exact le_trans himin (hmin y hmem)
            · intro a ha
              rcases List.mem_cons.1 ha with rfl | ha
              · exact le_refl _
              · have hle : chunk.contextStart ≤ chunk.contextStop := by
                  obtain ⟨w1, w2, w3, _⟩ := hwf
                  omega
                rw [hcs] at hle
                exact le_trans hle (le_trans himin (hmin a ha))
          · rw [if_neg htext]
            exact ih minPos acc (by omega) ⟨hacc, hchain⟩ hmin
      · rw [if_neg hnoun]
        by_cases hnn : (tokenGet doc i).lower ∈ NON_NOUN_ASPECTS
        · rw [if_pos hnn]
          refine ih i (mkAspect doc i (i + 1) none none :: acc) (by omega) ⟨?_, ?_⟩ ?_
          · intro a ha
            rcases List.mem_cons.1 ha with rfl | ha
            · exact ⟨⟨le_refl _, Nat.le_succ _, le_refl _, hilt⟩, rfl, rfl, rfl, rfl⟩
            · exact hacc a ha
          · rw [List.chain'_cons']
            refine ⟨?_, hchain⟩
            intro y hy
            have hmem : y ∈ acc := List.mem_of_mem_head? hy
            show (i + 1 : Nat) ≤ y.contextStart
            exact le_trans himin (hmin y hmem)
          · intro a ha
            rcases List.mem_cons.1 ha with rfl | ha
            · exact le_refl _
            · exact le_trans (by omega) (le_trans himin (hmin a ha))
        · rw [if_neg hnn]
          exact ih minPos acc (by omega) ⟨hacc, hchain⟩ hmin

/-- The sentence scanner's output invariant. -/
theorem scanSentence_inv (doc : Doc) (hdoc : docOK doc) :
    scanInv doc (scanSentence doc) :=
  scanAux_inv doc hdoc doc.length doc.length [] (le_refl _) ⟨by simp, by simp⟩ (by simp)

end AspectExtractor

/-! ## The merger preserves the invariant -/

namespace AspectExtractor

/-- A nonempty list keeps its head's start and context start through the
merger pass. -/
theorem mergeAll_head_struct (doc : Doc) (c : Aspect) (cs : List Aspect) :
    ∃ hd tl, mergeAll doc (c :: cs) = hd :: tl ∧
      hd.contextStart = c.contextStart ∧ hd.start = c.start := by
  cases hr : mergeAll doc cs with
  | nil => exact ⟨c, [], mergeAll_cons_nil doc c cs hr, rfl, rfl⟩
  | cons b rs =>
    by_cases hc : mergeCond doc c b = true
    · refine ⟨mergedAspect doc c b, rs, ?_, rfl, rfl⟩
      rw [mergeAll_cons_cons doc c cs b rs hr, if_pos hc]
    · refine ⟨c, b :: rs, ?_, rfl, rfl⟩
      rw [mergeAll_cons_cons doc c cs b rs hr, if_neg hc]

/-- The merge condition forces the two reduced slices to be adjacent. -/
theorem mergeCond_adjacent (doc : Doc) (a b : Aspect)
    (h : mergeCond doc a b = true) : a.stop = b.start := by
  unfold mergeCond at h
  simp only [Bool.and_eq_true, beq_iff_eq] at h
  exact h.2

/-- The merged aspect of a qualifying, well-formed pair is well-formed,
and its context is the union of the two contexts. -/
theorem mergedAspect_wf (doc : Doc) (a b : Aspect)
    (hwa : wfAspect a) (hwb : wfAspect b) (_hda : a.doc = doc) (hdb : b.doc = doc)
    (hstop : a.stop = b.start) :
    wfAspect (mergedAspect doc a b) ∧ (mergedAspect doc a b).doc = doc := by
  obtain ⟨a1, a2, a3, a4⟩ := hwa
  obtain ⟨b1, b2, b3, b4⟩ := hwb
  refine ⟨⟨a1, ?_, b3, ?_⟩, rfl⟩
  · show a.start ≤ b.stop
    omega
  · show b.contextStop ≤ doc.length
    rw [← hdb]
    exact b4

/-- One merger pass preserves the scanner invariant. -/
theorem mergeAll_inv (doc : Doc) :
    ∀ as : List Aspect, scanInv doc as → scanInv doc (mergeAll doc as) := by
  intro as
  induction as with
  | nil => intro h; exact h
  | cons a rest ih =>
    intro ⟨hall, hchain⟩
    have hresti : scanInv doc rest :=
      ⟨fun x hx => hall x (List.mem_cons_of_mem a hx),
       (List.chain'_cons'.1 hchain).2⟩
    obtain ⟨hall', hchain'⟩ := ih hresti
    cases rest with
    | nil =>
      rw [mergeAll_cons_nil doc a [] rfl]
      exact ⟨hall, hchain⟩
    | cons c cs =>
      obtain ⟨hd, tl, heq, hctx, hst⟩ := mergeAll_head_struct doc c cs
      have hac : ctxLe a c := (List.chain'_cons.1 hchain).1
      have hahd : a.contextStop ≤ hd.contextStart := by rw [hctx]; exact hac
      rw [heq] at hall' hchain'
      by_cases hc : mergeCond doc a hd = true
      · rw [mergeAll_cons_cons doc a (c :: cs) hd tl heq, if_pos hc]
        have hwa := hall a (List.mem_cons_self a _)
        have hwhd := hall' hd (List.mem_cons_self hd _)
        have hm := mergedAspect_wf doc a hd hwa.1 hwhd.1 hwa.2.1 hwhd.2.1
          (mergeCond_adjacent doc a hd hc)
        constructor
        · intro x hx
          rcases List.mem_cons.1 hx with rfl | hx
          · exact ⟨hm.1, hm.2, rfl, rfl, rfl⟩
          · exact hall' x (List.mem_cons_of_mem hd hx)
        · rw [List.chain'_cons']
          refine ⟨?_, (List.chain'_cons'.1 hchain').2⟩
          intro y hy
          show (mergedAspect doc a hd).contextStop ≤ y.contextStart
          have : (mergedAspect doc a hd).contextStop = hd.contextStop := rfl
          rw [this]
          exact (List.chain'_cons'.1 hchain').1 y hy
      · rw [mergeAll_cons_cons doc a (c :: cs) hd tl heq, if_neg hc]
        constructor
        · intro x hx
          rcases List.mem_cons.1 hx with rfl | hx
          · exact hall x (List.mem_cons_self x _)
          · exact hall' x hx
        · rw [List.chain'_cons']
          exact ⟨fun y hy => by cases hy; exact hahd, hchain'⟩

/-- The scanner-plus-merger front end of the pipeline keeps the
invariant. -/
theorem mergePass_scan_inv (doc : Doc) (hdoc : docOK doc) :
    scanInv doc (mergePass doc (scanSentence doc)) := by
  rw [mergePass_eq_mergeAll]
  exact mergeAll_inv doc (scanSentence doc) (scanSentence_inv doc hdoc)

end AspectExtractor

/-! ## The disambiguator: state lemmas -/

namespace AspectExtractor

theorem getD_set_self (l : List Aspect) (i : Nat) (x d : Aspect)
    (h : i < l.length) : (l.set i x).getD i d = x := by
  rw [List.getD_eq_getElem?_getD, List.getElem?_set_self h]
  rfl

theorem getD_set_ne (l : List Aspect) (i j : Nat) (x d : Aspect)
    (h : i ≠ j) : (l.set i x).getD j d = l.getD j d := by
  rw [List.getD_eq_getElem?_getD, List.getElem?_set_ne h,
    ← List.getD_eq_getElem?_getD]

theorem text_congr (a b : Aspect) (h1 : a.doc = b.doc) (h2 : a.start = b.start)
    (h3 : a.stop = b.stop) : a.text = b.text := by
  unfold Aspect.text
  rw [h1, h2, h3]

/-- Remaining budget never grows under `expand`. -/
theorem expand_budget_le (a : Aspect) : budget a.expand.1 ≤ budget a := by
  by_cases hl : a.leftOK
  · obtain ⟨c1, c2⟩ := Aspect.expand_left_counters a hl
    unfold budget
    rw [c1, c2]
    omega
  · by_cases hr : a.rightOK
    · obtain ⟨c1, c2⟩ := Aspect.expand_right_counters a hl hr
      unfold budget
      rw [c1, c2]
      omega
    · rw [Aspect.expand_of_blocked a hl hr]

/-- Unfolding equation of the `while` loop at successor fuel. -/
theorem disambWhile_succ (doc : Doc) (fuel : Nat) (ai aj : Aspect) :
    disambWhile doc (fuel + 1) ai aj =
      (if ai.context = aj.context then
        (if ai.expand.2 || aj.expand.2 then
          disambWhile doc fuel ai.expand.1 aj.expand.1
         else (ai, aj, true))
       else (ai, aj, false)) := rfl

/-- The `while` loop never touches the doc, the reduced slices or the
ordinals of the two aspects. -/
theorem disambWhile_pres (doc : Doc) : ∀ (fuel : Nat) (ai aj : Aspect),
    ((disambWhile doc fuel ai aj).1.doc = ai.doc ∧
      (disambWhile doc fuel ai aj).1.start = ai.start ∧
      (disambWhile doc fuel ai aj).1.stop = ai.stop ∧
      (disambWhile doc fuel ai aj).1.ordinal = ai.ordinal) ∧
    ((disambWhile doc fuel ai aj).2.1.doc = aj.doc ∧
      (disambWhile doc fuel ai aj).2.1.start = aj.start ∧
      (disambWhile doc fuel ai aj).2.1.stop = aj.stop ∧
      (disambWhile doc fuel ai aj).2.1.ordinal = aj.ordinal) := by
  intro fuel
  induction fuel with
  | zero => intro ai aj; exact ⟨⟨rfl, rfl, rfl, rfl⟩, rfl, rfl, rfl, rfl⟩
  | succ fuel ih =>
    intro ai aj
    rw [disambWhile_succ]
    by_cases hctx : ai.context = aj.context
    · rw [if_pos hctx]
      by_cases he : (ai.expand.2 || aj.expand.2) = true
      · rw [if_pos he]
        obtain ⟨p1, p2⟩ := ih ai.expand.1 aj.expand.1
        obtain ⟨q1, q2, q3, q4⟩ := ai.expand_preserves
        obtain ⟨r1, r2, r3, r4⟩ := aj.expand_preserves
        exact ⟨⟨p1.1.trans q1, p1.2.1.trans q2, p1.2.2.1.trans q3, p1.2.2.2.trans q4⟩,
               p2.1.trans r1, p2.2.1.trans r2, p2.2.2.1.trans r3, p2.2.2.2.trans r4⟩
      · rw [if_neg he]
        exact ⟨⟨rfl, rfl, rfl, rfl⟩, rfl, rfl, rfl, rfl⟩
    · rw [if_neg hctx]
      exact ⟨⟨rfl, rfl, rfl, rfl⟩, rfl, rfl, rfl, rfl⟩

/-- The `while` loop preserves well-formedness of both aspects. -/
theorem disambWhile_wf (doc : Doc) : ∀ (fuel : Nat) (ai aj : Aspect),
    wfAspect ai → wfAspect aj →
    wfAspect (disambWhile doc fuel ai aj).1 ∧
      wfAspect (disambWhile doc fuel ai aj).2.1 := by
  intro fuel
  induction fuel with
  | zero => intro ai aj hi hj; exact ⟨hi, hj⟩
  | succ fuel ih =>
    intro ai aj hi hj
    rw [disambWhile_succ]
    by_cases hctx : ai.context = aj.context
    · rw [if_pos hctx]
      by_cases he : (ai.expand.2 || aj.expand.2) = true
      · rw [if_pos he]
        exact ih ai.expand.1 aj.expand.1 (ai.expand_wf hi) (aj.expand_wf hj)
      · rw [if_neg he]
        exact ⟨hi, hj⟩
    · rw [if_neg hctx]
      exact ⟨hi, hj⟩

/-- With fuel above the combined remaining budget, the `while` loop ends
properly: the final contexts differ, or the warning was emitted. -/
theorem disambWhile_post (doc : Doc) : ∀ (fuel : Nat) (ai aj : Aspect),
    budget ai + budget aj < fuel →
    (disambWhile doc fuel ai aj).1.context ≠ (disambWhile doc fuel ai aj).2.1.context ∨
      (disambWhile doc fuel ai aj).2.2 = true := by
  intro fuel
  induction fuel with
  | zero => intro ai aj h; omega
  | succ fuel ih =>
    intro ai aj h
    rw [disambWhile_succ]
    by_cases hctx : ai.context = aj.context
    · rw [if_pos hctx]
      cases he : (ai.expand.2 || aj.expand.2) with
      | false => rw [if_neg (by simp)]; exact Or.inr rfl
      | true =>
        rw [if_pos rfl]
        rcases Bool.or_eq_true_iff.1 he with h1 | h1
        · exact ih ai.expand.1 aj.expand.1
            (by have := Aspect.expand_budget_lt ai h1
                have := expand_budget_le aj
                omega)
        · exact ih ai.expand.1 aj.expand.1
            (by have := Aspect.expand_budget_lt aj h1
                have := expand_budget_le ai
                omega)
    · rw [if_neg hctx]
      exact Or.inl hctx

/-- Every aspect's budget is at most `5`, so fuel `11` always exceeds the
combined budget of a pair. -/
theorem budget_le_five (a : Aspect) : budget a ≤ 5 := by
  unfold budget Aspect.MAX_EXPANSION_LEFT Aspect.MAX_EXPANSION_RIGHT
  omega

/-- Unfolding equation of `disambPair`, with the `let`s reduced. -/
theorem disambPair_eq (doc : Doc) (s : List Aspect × Bool) (i j : Nat)
    (ai aj : Aspect) (hai : s.1.getD i (mkAspect doc 0 0 none none) = ai)
    (haj : s.1.getD j (mkAspect doc 0 0 none none) = aj) :
    disambPair doc s i j =
      (if ai.text = aj.text then
        ((s.1.set i (disambWhile doc 11 ai { aj with ordinal := ai.ordinal + 1 }).1).set j
           (disambWhile doc 11 ai { aj with ordinal := ai.ordinal + 1 }).2.1,
         s.2 || (disambWhile doc 11 ai { aj with ordinal := ai.ordinal + 1 }).2.2)
       else s) := by
  subst hai haj
  rfl

theorem disambPair_length (doc : Doc) (s : List Aspect × Bool) (i j : Nat) :
    (disambPair doc s i j).1.length = s.1.length := by
  rw [disambPair_eq doc s i j _ _ rfl rfl]
  split
  · simp
  · rfl

/-- `disambPair` never changes the doc or the reduced slice at any
position. -/
theorem disambPair_spans (doc : Doc) (s : List Aspect × Bool) (i j : Nat)
    (hij : i ≠ j) (p : Nat) :
    ((disambPair doc s i j).1.getD p (mkAspect doc 0 0 none none)).doc =
        (s.1.getD p (mkAspect doc 0 0 none none)).doc ∧
      ((disambPair doc s i j).1.getD p (mkAspect doc 0 0 none none)).start =
        (s.1.getD p (mkAspect doc 0 0 none none)).start ∧
      ((disambPair doc s i j).1.getD p (mkAspect doc 0 0 none none)).stop =
        (s.1.getD p (mkAspect doc 0 0 none none)).stop := by
  rw [disambPair_eq doc s i j _ _ rfl rfl]
  by_cases htext : (s.1.getD i (mkAspect doc 0 0 none none)).text =
      (s.1.getD j (mkAspect doc 0 0 none none)).text
  · rw [if_pos htext]
    by_cases hp : p < s.1.length
    · by_cases hpj : p = j
      · subst hpj
        rw [getD_set_self _ p _ _ (by simpa using hp)]
        obtain ⟨_, q⟩ := disambWhile_pres doc 11 (s.1.getD i (mkAspect doc 0 0 none none))
          { s.1.getD p (mkAspect doc 0 0 none none) with
            ordinal := (s.1.getD i (mkAspect doc 0 0 none none)).ordinal + 1 }
        exact ⟨q.1, q.2.1, q.2.2.1⟩
      · rw [getD_set_ne _ j p _ _ (fun he => hpj he.symm)]
        by_cases hpi : p = i
        · subst hpi
          rw [getD_set_self _ p _ _ hp]
          obtain ⟨q, _⟩ := disambWhile_pres doc 11 (s.1.getD p (mkAspect doc 0 0 none none))
            { s.1.getD j (mkAspect doc 0 0 none none) with
              ordinal := (s.1.getD p (mkAspect doc 0 0 none none)).ordinal + 1 }
          exact ⟨q.1, q.2.1, q.2.2.1⟩
        · rw [getD_set_ne _ i p _ _ (fun he => hpi he.symm)]
          exact ⟨rfl, rfl, rfl⟩
    · have h1 : s.1.length ≤ p := by omega
      rw [List.getD_eq_default _ _ (by simpa using h1),
          List.getD_eq_default _ _ h1]
      exact ⟨rfl, rfl, rfl⟩
  · rw [if_neg htext]
    exact ⟨rfl, rfl, rfl⟩

/-- `disambPair` keeps every aspect well-formed on `doc`. -/
theorem disambPair_wf (doc : Doc) (s : List Aspect × Bool) (i j : Nat)
    (hall : ∀ a ∈ s.1, wfAspect a ∧ a.doc = doc) :
    ∀ a ∈ (disambPair doc s i j).1, wfAspect a ∧ a.doc = doc := by
  rw [disambPair_eq doc s i j _ _ rfl rfl]
  by_cases htext : (s.1.getD i (mkAspect doc 0 0 none none)).text =
      (s.1.getD j (mkAspect doc 0 0 none none)).text
  · rw [if_pos htext]
    intro a ha
    have hwi : wfAspect (s.1.getD i (mkAspect doc 0 0 none none)) ∧
        (s.1.getD i (mkAspect doc 0 0 none none)).doc = doc := by
      by_cases hi : i < s.1.length
      · rw [List.getD_eq_getElem s.1 _ hi]
        exact hall _ (List.getElem_mem hi)
      · rw [List.getD_eq_default _ _ (by omega)]
        exact ⟨⟨le_refl _, le_refl _, le_refl _, Nat.zero_le _⟩, rfl⟩
    have hwj : wfAspect (s.1.getD j (mkAspect doc 0 0 none none)) ∧
        (s.1.getD j (mkAspect doc 0 0 none none)).doc = doc := by
      by_cases hj : j < s.1.length
      · rw [List.getD_eq_getElem s.1 _ hj]
        exact hall _ (List.getElem_mem hj)
      · rw [List.getD_eq_default _ _ (by omega)]
        exact ⟨⟨le_refl _, le_refl _, le_refl _, Nat.zero_le _⟩, rfl⟩
    have hwj0 : wfAspect { s.1.getD j (mkAspect doc 0 0 none none) with
        ordinal := (s.1.getD i (mkAspect doc 0 0 none none)).ordinal + 1 } ∧
        ({ s.1.getD j (mkAspect doc 0 0 none none) with
          ordinal := (s.1.getD i (mkAspect doc 0 0 none none)).ordinal + 1 } : Aspect).doc
          = doc := hwj
    have hw := disambWhile_wf doc 11 _ _ hwi.1 hwj0.1
    have hd := disambWhile_pres doc 11 (s.1.getD i (mkAspect doc 0 0 none none))
      { s.1.getD j (mkAspect doc 0 0 none none) with
        ordinal := (s.1.getD i (mkAspect doc 0 0 none none)).ordinal + 1 }
    rcases List.mem_or_eq_of_mem_set ha with ha1 | ha1
    · rcases List.mem_or_eq_of_mem_set ha1 with ha2 | ha2
      · exact hall a ha2
      · subst ha2
        exact ⟨hw.1, hd.1.1.trans hwi.2⟩
    · subst ha1
      exact ⟨hw.2, hd.2.1.trans hwj0.2⟩
  · rw [if_neg htext]
    exact hall

end AspectExtractor

/-! ## The disambiguator preserves lengths, slices and well-formedness -/

namespace AspectExtractor

theorem mem_pairIndices (n : Nat) (p : Nat × Nat) :
    p ∈ pairIndices n ↔ p.1 < p.2 ∧ p.2 < n := by
  unfold pairIndices
  rw [List.mem_flatMap]
  constructor
  · rintro ⟨i, hi, hp⟩
    rw [List.mem_map] at hp
    obtain ⟨j, hj, rfl⟩ := hp
    rw [List.mem_filter] at hj
    exact ⟨by simpa using hj.2, List.mem_range.1 hj.1⟩
  · rintro ⟨h1, h2⟩
    refine ⟨p.1, List.mem_range.2 (by omega), ?_⟩
    rw [List.mem_map]
    exact ⟨p.2, List.mem_filter.2 ⟨List.mem_range.2 h2, by simpa using h1⟩, rfl⟩

theorem foldl_disambPair_pres (doc : Doc) :
    ∀ (ps : List (Nat × Nat)) (s : List Aspect × Bool),
      (∀ p ∈ ps, p.1 < p.2 ∧ p.2 < s.1.length) →
      (ps.foldl (fun t p => disambPair doc t p.1 p.2) s).1.length = s.1.length ∧
      (∀ q,
        ((ps.foldl (fun t p => disambPair doc t p.1 p.2) s).1.getD q
            (mkAspect doc 0 0 none none)).doc =
          (s.1.getD q (mkAspect doc 0 0 none none)).doc ∧
        ((ps.foldl (fun t p => disambPair doc t p.1 p.2) s).1.getD q
            (mkAspect doc 0 0 none none)).start =
          (s.1.getD q (mkAspect doc 0 0 none none)).start ∧
        ((ps.foldl (fun t p => disambPair doc t p.1 p.2) s).1.getD q
            (mkAspect doc 0 0 none none)).stop =
          (s.1.getD q (mkAspect doc 0 0 none none)).stop) ∧
      ((∀ a ∈ s.1, wfAspect a ∧ a.doc = doc) →
        ∀ a ∈ (ps.foldl (fun t p => disambPair doc t p.1 p.2) s).1,
          wfAspect a ∧ a.doc = doc) := by
  intro ps
  induction ps with
  | nil => intro s _; exact ⟨rfl, fun q => ⟨rfl, rfl, rfl⟩, fun h => h⟩
  | cons p ps ih =>
    intro s hps
    have h0 := hps p (List.mem_cons_self p ps)
    have hlen := disambPair_length doc s p.1 p.2
    have hsp := fun q => disambPair_spans doc s p.1 p.2 (Nat.ne_of_lt h0.1) q
    obtain ⟨ih1, ih2, ih3⟩ := ih (disambPair doc s p.1 p.2)
      (fun q hq => ⟨(hps q (List.mem_cons_of_mem _ hq)).1,
        by rw [hlen]; exact (hps q (List.mem_cons_of_mem _ hq)).2⟩)
    rw [List.foldl_cons]
    refine ⟨ih1.trans hlen, ?_, ?_⟩
    · intro q
      exact ⟨(ih2 q).1.trans (hsp q).1, (ih2 q).2.1.trans (hsp q).2.1,
             (ih2 q).2.2.trans (hsp q).2.2⟩
    · intro hall
      exact ih3 (disambPair_wf doc s p.1 p.2 hall)

/-- The disambiguator never changes the list length, the docs or the
reduced slices; it keeps every aspect well-formed. -/
theorem disambiguate_pres (doc : Doc) (as : List Aspect) :
    (disambiguate doc as).1.length = as.length ∧
    (∀ q,
      ((disambiguate doc as).1.getD q (mkAspect doc 0 0 none none)).doc =
        (as.getD q (mkAspect doc 0 0 none none)).doc ∧
      ((disambiguate doc as).1.getD q (mkAspect doc 0 0 none none)).start =
        (as.getD q (mkAspect doc 0 0 none none)).start ∧
      ((disambiguate doc as).1.getD q (mkAspect doc 0 0 none none)).stop =
        (as.getD q (mkAspect doc 0 0 none none)).stop) ∧
    ((∀ a ∈ as, wfAspect a ∧ a.doc = doc) →
      ∀ a ∈ (disambiguate doc as).1, wfAspect a ∧ a.doc = doc) :=
  foldl_disambPair_pres doc (pairIndices as.length) (as, false)
    (fun p hp => (mem_pairIndices as.length p).1 hp)

/-- Unfolding equation of the per-sentence pipeline, with the `let`
reduced. -/
theorem extractSentence_eq (doc : Doc) :
    extractSentence doc =
      (if (mergePass doc (scanSentence doc)).length = 0 then (substitutes doc, false)
       else disambiguate doc (mergePass doc (scanSentence doc))) := rfl

theorem substitutes_facts (doc : Doc) :
    ∀ a ∈ substitutes doc, wfAspect a ∧ a.doc = doc ∧ a.stop = a.start + 1 ∧
      a.contextStart = a.start ∧ a.contextStop = a.stop ∧
      (tokenGet doc a.start).lower = NOUN_SUBSTITUTE ∧
      a.ordinal = 0 ∧ a.expansionLeft = 0 ∧ a.expansionRight = 0 := by
  intro a ha
  unfold substitutes at ha
  rw [List.mem_map] at ha
  obtain ⟨i, hi, rfl⟩ := ha
  rw [List.mem_filter, List.mem_range] at hi
  exact ⟨⟨le_refl _, Nat.le_succ _, le_refl _, hi.1⟩, rfl, rfl, rfl, rfl,
    eq_of_beq hi.2, rfl, rfl, rfl⟩

theorem substitutes_pairwise (doc : Doc) :
    List.Pairwise (fun a b => a.stop ≤ b.start) (substitutes doc) := by
  unfold substitutes
  rw [List.pairwise_map]
  exact List.Pairwise.imp (fun h => h) (List.Pairwise.filter _ (List.pairwise_lt_range _))

/-- Disjoint contexts propagate from the head over a well-formed chain. -/
theorem ctxLe_head_all :
    ∀ (l : List Aspect), (∀ a ∈ l, wfAspect a) → List.Chain' ctxLe l →
      ∀ x : Aspect, (∀ y ∈ l.head?, ctxLe x y) → ∀ b ∈ l, ctxLe x b := by
  intro l
  induction l with
  | nil => intro _ _ x _ b hb; cases hb
  | cons c cs ih =>
    intro hw hc x hx b hb
    have hxc : ctxLe x c := hx c (by simp)
    rcases List.mem_cons.1 hb with rfl | hb
    · exact hxc
    · refine ih (fun a ha => hw a (List.mem_cons_of_mem _ ha))
        (List.chain'_cons'.1 hc).2 x ?_ b hb
      intro y hy
      have hcy : ctxLe c y := (List.chain'_cons'.1 hc).1 y hy
      obtain ⟨w1, w2, w3, _⟩ := hw c (List.mem_cons_self _ _)
      unfold ctxLe at hxc hcy ⊢
      omega

theorem chain_wf_pairwise :
    ∀ (l : List Aspect), (∀ a ∈ l, wfAspect a) → List.Chain' ctxLe l →
      List.Pairwise ctxLe l := by
  intro l
  induction l with
  | nil => intro _ _; exact List.Pairwise.nil
  | cons c cs ih =>
    intro hw hc
    rw [List.pairwise_cons]
    exact ⟨ctxLe_head_all cs (fun a ha => hw a (List.mem_cons_of_mem _ ha))
            (List.chain'_cons'.1 hc).2 c (List.chain'_cons'.1 hc).1,
          ih (fun a ha => hw a (List.mem_cons_of_mem _ ha)) (List.chain'_cons'.1 hc).2⟩

end AspectExtractor

/-- **C1.** Every aspect handed back by the per-sentence pipeline (chunk
reducer output, non-noun whitelist aspects, merged aspects, placeholder
substitutes, and after any disambiguator expansion) satisfies
`0 ≤ context_start ≤ start ≤ stop ≤ context_stop ≤ len(sentence)`
(`wfAspect`; the `0 ≤` is inherent to `Nat`): the reduced span is always
contained in the context span.  Moreover every call to `expand` preserves
this containment.  The hypothesis `docOK` is the Token Source contract:
each token's left edge lies at or before the token. -/
theorem aspect_bounds_invariant :
    (∀ doc : Doc, AspectExtractor.docOK doc →
        ∀ a ∈ (AspectExtractor.extractSentence doc).1, AspectExtractor.wfAspect a) ∧
      (∀ a : Aspect, AspectExtractor.wfAspect a → AspectExtractor.wfAspect a.expand.1) := by
  refine ⟨?_, fun a h => a.expand_wf h⟩
  intro doc hdoc a ha
  rw [AspectExtractor.extractSentence_eq] at ha
  by_cases hlen : (AspectExtractor.mergePass doc (AspectExtractor.scanSentence doc)).length = 0
  · rw [if_pos hlen] at ha
    exact (AspectExtractor.substitutes_facts doc a ha).1
  · rw [if_neg hlen] at ha
    obtain ⟨hall, _⟩ := AspectExtractor.mergePass_scan_inv doc hdoc
    exact ((AspectExtractor.disambiguate_pres doc _).2.2
      (fun x hx => ⟨(hall x hx).1, (hall x hx).2.1⟩) a ha).1

/-- Witness for `aspect_bounds_invariant`: the single aspect extracted
from "this long movie" is well-formed. -/
theorem aspect_bounds_invariant_witness :
    AspectExtractor.wfAspect
      ((AspectExtractor.extractSentence dThisMovie).1.getD 0 dummyA) :=
  aspect_bounds_invariant.1 dThisMovie (by decide) _ (by decide)

/-- **C2.** In the final aspect list of any sentence, the reduced spans
are pairwise non-overlapping and in strict left-to-right token order:
every earlier aspect's `stop` is at most every later aspect's `start`. -/
theorem reduced_spans_ordered (doc : Doc) (hdoc : AspectExtractor.docOK doc) :
    List.Pairwise (fun a b : Aspect => a.stop ≤ b.start)
      (AspectExtractor.extractSentence doc).1 := by
  rw [AspectExtractor.extractSentence_eq]
  by_cases hlen : (AspectExtractor.mergePass doc (AspectExtractor.scanSentence doc)).length = 0
  · rw [if_pos hlen]
    exact AspectExtractor.substitutes_pairwise doc
  · rw [if_neg hlen]
    set l0 := AspectExtractor.mergePass doc (AspectExtractor.scanSentence doc) with hl0
    obtain ⟨hall, hchain⟩ := AspectExtractor.mergePass_scan_inv doc hdoc
    have hpw0 : List.Pairwise AspectExtractor.ctxLe l0 :=
      AspectExtractor.chain_wf_pairwise l0 (fun a ha => (hall a ha).1) hchain
    have hpw1 : List.Pairwise (fun a b : Aspect => a.stop ≤ b.start) l0 := by
      refine List.Pairwise.imp_of_mem ?_ hpw0
      intro a b ha hb hr
      obtain ⟨a1, a2, a3, a4⟩ := (hall a ha).1
      obtain ⟨b1, b2, b3, b4⟩ := (hall b hb).1
      unfold AspectExtractor.ctxLe at hr
      omega
    obtain ⟨hlen1, hsp, _⟩ := AspectExtractor.disambiguate_pres doc l0
    rw [List.pairwise_iff_getElem] at hpw1 ⊢
    intro i j hi hj hij
    have hi0 : i < l0.length := by omega
    have hj0 : j < l0.length := by omega
    rw [← List.getD_eq_getElem (AspectExtractor.disambiguate doc l0).1
        (mkAspect doc 0 0 none none) hi,
      ← List.getD_eq_getElem (AspectExtractor.disambiguate doc l0).1
        (mkAspect doc 0 0 none none) hj,
      (hsp i).2.2, (hsp j).2.1,
      List.getD_eq_getElem l0 (mkAspect doc 0 0 none none) hi0,
      List.getD_eq_getElem l0 (mkAspect doc 0 0 none none) hj0]
    exact hpw1 i j hi0 hj0 hij

/-- Witness for `reduced_spans_ordered`: the three aspects of the
re-collision sentence appear in order with disjoint reduced spans. -/
theorem reduced_spans_ordered_witness :
    List.Pairwise (fun a b : Aspect => a.stop ≤ b.start)
      (AspectExtractor.extractSentence dRecollide).1 :=
  reduced_spans_ordered dRecollide (by decide)

/-- **C4.** When the scanner plus merger yield an empty list, the final
list is exactly one single-token aspect per occurrence of the placeholder
token (lowercased text `"overall"`), with context equal to the reduced
span, ordinal and expansion counters zero; the disambiguator is not run
(no warning can be emitted). -/
theorem empty_scan_substitutes (doc : Doc)
    (h : AspectExtractor.mergePass doc (AspectExtractor.scanSentence doc) = []) :
    AspectExtractor.extractSentence doc = (AspectExtractor.substitutes doc, false) ∧
    ((AspectExtractor.extractSentence doc).1.map Aspect.start) =
      ((List.range doc.length).filter fun i =>
        (tokenGet doc i).lower == AspectExtractor.NOUN_SUBSTITUTE) ∧
    (∀ a ∈ (AspectExtractor.extractSentence doc).1,
      a.stop = a.start + 1 ∧ a.contextStart = a.start ∧ a.contextStop = a.stop ∧
      (tokenGet doc a.start).lower = AspectExtractor.NOUN_SUBSTITUTE ∧
      a.ordinal = 0 ∧ a.expansionLeft = 0 ∧ a.expansionRight = 0) := by
  have he : AspectExtractor.extractSentence doc = (AspectExtractor.substitutes doc, false) := by
    rw [AspectExtractor.extractSentence_eq, if_pos (by rw [h]; rfl)]
  refine ⟨he, ?_, ?_⟩
  · rw [he]
    show (AspectExtractor.substitutes doc).map Aspect.start = _
    unfold AspectExtractor.substitutes
    rw [List.map_map]
    have hcomp : (Aspect.start ∘ fun i => mkAspect doc i (i + 1) none none) = id := rfl
    rw [hcomp, List.map_id]
  · rw [he]
    intro a ha
    exact (AspectExtractor.substitutes_facts doc a ha).2.2

/-- Witness for `empty_scan_substitutes`: on "Overall great" the pipeline
returns the placeholder aspect list with no disambiguation. -/
theorem empty_scan_substitutes_witness :
    AspectExtractor.extractSentence dOverall =
      (AspectExtractor.substitutes dOverall, false) :=
  (empty_scan_substitutes dOverall (by decide)).1

/-! ## C3: the end-of-run context guarantee fails (re-collision), but the
per-pair postcondition holds -/

/-- **C3, counterexample.**  On the sentence `a x q , x , a x z` (three
occurrences of the noun `x`, the middle one fenced by commas), the
disambiguator finishes with aspects 0 and 2 having equal reduced texts
*and* equal context texts (`"a x"`), while no diagnostic warning was ever
emitted: pair `(1, 2)` re-expanded aspect 2's context into exactly aspect
0's context after pair `(0, 2)` had already been processed.  The doc
satisfies the Token Source contract, so the failure is not an artefact of
malformed input. -/
theorem disamb_recollision_cex :
    AspectExtractor.docOK dRecollide ∧
    ((AspectExtractor.extractSentence dRecollide).1.getD 0 dummyA).text =
      ((AspectExtractor.extractSentence dRecollide).1.getD 2 dummyA).text ∧
    ((AspectExtractor.extractSentence dRecollide).1.getD 0 dummyA).context =
      ((AspectExtractor.extractSentence dRecollide).1.getD 2 dummyA).context ∧
    (AspectExtractor.extractSentence dRecollide).2 = false ∧
    2 < (AspectExtractor.extractSentence dRecollide).1.length := by
  refine ⟨by decide, by decide, by decide, by decide, by decide⟩

/-- **C3, amended.**  Immediately after the disambiguator processes a pair
`(i, j)` of aspects with equal reduced texts, either their context texts
differ at that point or the diagnostic warning flag is set; the duplicate
is kept in the list (the length is unchanged), and `aspects[j]`'s ordinal
is set to `aspects[i]`'s ordinal plus one.  (The guarantee holds at
pair-processing time only: as `disamb_recollision_cex` shows, a later
pair's expansion may re-equalize the two context texts with no warning.) -/
theorem disamb_pair_postcondition (doc : Doc) (s : List Aspect × Bool) (i j : Nat)
    (hij : i < j) (hjlen : j < s.1.length)
    (htext : (s.1.getD i (mkAspect doc 0 0 none none)).text =
      (s.1.getD j (mkAspect doc 0 0 none none)).text) :
    (((AspectExtractor.disambPair doc s i j).1.getD i
          (mkAspect doc 0 0 none none)).context ≠
        ((AspectExtractor.disambPair doc s i j).1.getD j
          (mkAspect doc 0 0 none none)).context ∨
      (AspectExtractor.disambPair doc s i j).2 = true) ∧
    (AspectExtractor.disambPair doc s i j).1.length = s.1.length ∧
    ((AspectExtractor.disambPair doc s i j).1.getD j
        (mkAspect doc 0 0 none none)).ordinal =
      (s.1.getD i (mkAspect doc 0 0 none none)).ordinal + 1 := by
  have hilen : i < s.1.length := lt_trans hij hjlen
  rw [AspectExtractor.disambPair_eq doc s i j _ _ rfl rfl, if_pos htext]
  have hjlen' : j < (s.1.set i
      (AspectExtractor.disambWhile doc 11 (s.1.getD i (mkAspect doc 0 0 none none))
        { s.1.getD j (mkAspect doc 0 0 none none) with
          ordinal := (s.1.getD i (mkAspect doc 0 0 none none)).ordinal + 1 }).1).length := by
    simpa using hjlen
  dsimp only
  refine ⟨?_, by simp, ?_⟩
  · rw [AspectExtractor.getD_set_ne _ j i _ _ (by omega),
      AspectExtractor.getD_set_self _ i _ _ hilen,
      AspectExtractor.getD_set_self _ j _ _ hjlen']
    have hpost := AspectExtractor.disambWhile_post doc 11
      (s.1.getD i (mkAspect doc 0 0 none none))
      { s.1.getD j (mkAspect doc 0 0 none none) with
        ordinal := (s.1.getD i (mkAspect doc 0 0 none none)).ordinal + 1 }
      (by
        have h1 := AspectExtractor.budget_le_five (s.1.getD i (mkAspect doc 0 0 none none))
        have h2 := AspectExtractor.budget_le_five
          { s.1.getD j (mkAspect doc 0 0 none none) with
            ordinal := (s.1.getD i (mkAspect doc 0 0 none none)).ordinal + 1 }
        omega)
    rcases hpost with hp | hp
    · exact Or.inl hp
    · exact Or.inr (by rw [hp, Bool.or_true])
  · rw [AspectExtractor.getD_set_self _ j _ _ hjlen']
    exact (AspectExtractor.disambWhile_pres doc 11 _ _).2.2.2.2

/-- Witness for `disamb_pair_postcondition`: the pair of equal-text
aspects of the two-token sentence `x x`. -/
theorem disamb_pair_postcondition_witness :
    (((AspectExtractor.disambPair dPair (asPair, false) 0 1).1.getD 0
          (mkAspect dPair 0 0 none none)).context ≠
        ((AspectExtractor.disambPair dPair (asPair, false) 0 1).1.getD 1
          (mkAspect dPair 0 0 none none)).context ∨
      (AspectExtractor.disambPair dPair (asPair, false) 0 1).2 = true) ∧
    (AspectExtractor.disambPair dPair (asPair, false) 0 1).1.length =
      (asPair, false).1.length ∧
    ((AspectExtractor.disambPair dPair (asPair, false) 0 1).1.getD 1
        (mkAspect dPair 0 0 none none)).ordinal =
      ((asPair, false).1.getD 0 (mkAspect dPair 0 0 none none)).ordinal + 1 :=
  disamb_pair_postcondition dPair (asPair, false) 0 1 (by decide) (by decide) (by decide)

/-! ## C10: the ordinal assignment of the disambiguator -/

namespace AspectExtractor

theorem disambPair_text (doc : Doc) (s : List Aspect × Bool) (i j : Nat)
    (hij : i ≠ j) (p : Nat) :
    ((disambPair doc s i j).1.getD p (mkAspect doc 0 0 none none)).text =
      (s.1.getD p (mkAspect doc 0 0 none none)).text := by
  obtain ⟨h1, h2, h3⟩ := disambPair_spans doc s i j hij p
  exact text_congr _ _ h1 h2 h3

/-- The ordinal effect of one pair `(i, j)`: position `j` is set to
`ordinal i + 1` when the reduced texts match, every other position keeps
its ordinal. -/
theorem disambPair_ordinal (doc : Doc) (s : List Aspect × Bool) (i j : Nat)
    (hij : i < j) (hjlen : j < s.1.length) (p : Nat) :
    ((disambPair doc s i j).1.getD p (mkAspect doc 0 0 none none)).ordinal =
      if p = j ∧ (s.1.getD i (mkAspect doc 0 0 none none)).text =
          (s.1.getD j (mkAspect doc 0 0 none none)).text
      then (s.1.getD i (mkAspect doc 0 0 none none)).ordinal + 1
      else (s.1.getD p (mkAspect doc 0 0 none none)).ordinal := by
  have hilen : i < s.1.length := lt_trans hij hjlen
  rw [disambPair_eq doc s i j _ _ rfl rfl]
  by_cases htext : (s.1.getD i (mkAspect doc 0 0 none none)).text =
      (s.1.getD j (mkAspect doc 0 0 none none)).text
  · rw [if_pos htext]
    dsimp only
    have hjlen' : j < (s.1.set i
        (disambWhile doc 11 (s.1.getD i (mkAspect doc 0 0 none none))
          { s.1.getD j (mkAspect doc 0 0 none none) with
            ordinal := (s.1.getD i (mkAspect doc 0 0 none none)).ordinal + 1 }).1).length := by
      simpa using hjlen
    by_cases hpj : p = j
    · subst hpj
      rw [getD_set_self _ p _ _ hjlen', if_pos ⟨rfl, htext⟩]
      exact (disambWhile_pres doc 11 _ _).2.2.2.2
    · rw [getD_set_ne _ j p _ _ (fun he => hpj he.symm),
        if_neg (fun hc => hpj hc.1)]
      by_cases hpi : p = i
      · subst hpi
        rw [getD_set_self _ p _ _ hilen]
        exact (disambWhile_pres doc 11 _ _).1.2.2.2
      · rw [getD_set_ne _ i p _ _ (fun he => hpi he.symm)]
  · rw [if_neg htext, if_neg (fun hc => htext hc.2)]

/-- The chunk reducer creates aspects with ordinal zero. -/
theorem reduceNounChunk_ordinal0 (doc : Doc) (start stop : Nat) :
    ∀ a, reduceNounChunk doc start stop = some a → a.ordinal = 0 := by
  intro a he
  rw [reduceNounChunk_eq] at he
  cases hb : reduceBack doc (findFullStart doc start stop) stop
      (stop - findFullStart doc start stop) with
  | none => rw [hb] at he; exact absurd he (by simp)
  | some rs =>
    rw [hb] at he
    simp only [Option.some.injEq] at he
    subst he
    rfl

/-- The scanner creates aspects with ordinal zero (no Token Source
contract needed). -/
theorem scanAux_ordinal0 (doc : Doc) :
    ∀ (fuel minPos : Nat) (acc : List Aspect), (∀ a ∈ acc, a.ordinal = 0) →
      ∀ a ∈ scanAux doc fuel minPos acc, a.ordinal = 0 := by
  intro fuel
  induction fuel with
  | zero => intro _ acc hacc; exact hacc
  | succ i ih =>
    intro minPos acc hacc
    rw [scanAux]
    by_cases hguard : minPos ≤ i
    · rw [if_pos hguard]; exact ih minPos acc hacc
    · rw [if_neg hguard]
      by_cases hnoun : posInWhitelist (tokenGet doc i).pos = true
      · rw [if_pos hnoun]
        cases hch : reduceNounChunk doc (tokenGet doc i).leftEdge (i + 1) with
        | none =>
          show ∀ a ∈ scanAux doc i minPos acc, a.ordinal = 0
          exact ih minPos acc hacc
        | some chunk =>
          show ∀ a ∈ (if chunk.text ≠ "" then
            scanAux doc i chunk.contextStart (chunk :: acc)
            else scanAux doc i minPos acc), a.ordinal = 0
          by_cases htext : chunk.text ≠ ""
          · rw [if_pos htext]
            refine ih chunk.contextStart (chunk :: acc) ?_
            intro a ha
            rcases List.mem_cons.1 ha with rfl | ha
            · exact reduceNounChunk_ordinal0 doc _ _ a hch
            · exact hacc a ha
          · rw [if_neg htext]; exact ih minPos acc hacc
      · rw [if_neg hnoun]
        by_cases hnn : (tokenGet doc i).lower ∈ NON_NOUN_ASPECTS
        · rw [if_pos hnn]
          refine ih i (mkAspect doc i (i + 1) none none :: acc) ?_
          intro a ha
          rcases List.mem_cons.1 ha with rfl | ha
          · rfl
          · exact hacc a ha
        · rw [if_neg hnn]; exact ih minPos acc hacc

/-- The merger keeps all ordinals zero. -/
theorem mergeAll_ordinal0 (doc : Doc) :
    ∀ as : List Aspect, (∀ a ∈ as, a.ordinal = 0) →
      ∀ a ∈ mergeAll doc as, a.ordinal = 0 := by
  intro as
  induction as with
  | nil => intro h; exact h
  | cons a rest ih =>
    intro hall
    have hrest := ih (fun x hx => hall x (List.mem_cons_of_mem a hx))
    cases hr : mergeAll doc rest with
    | nil =>
      rw [mergeAll_cons_nil doc a rest hr]
      intro x hx
      rcases List.mem_cons.1 hx with rfl | hx
      · exact hall x (List.mem_cons_self x rest)
      · cases hx
    | cons b rs =>
      rw [mergeAll_cons_cons doc a rest b rs hr]
      rw [hr] at hrest
      by_cases hc : mergeCond doc a b = true
      · rw [if_pos hc]
        intro x hx
        rcases List.mem_cons.1 hx with rfl | hx
        · rfl
        · exact hrest x (List.mem_cons_of_mem b hx)
      · rw [if_neg hc]
        intro x hx
        rcases List.mem_cons.1 hx with rfl | hx
        · exact hall x (List.mem_cons_self x rest)
        · exact hrest x hx

/-- Folding one `i`-block of the disambiguator over distinct second
indices `js`: lengths and texts are unchanged, and the ordinal of a
position `p` becomes `ordinal i + 1` exactly when `p` is in the block and
the texts match. -/
theorem blockFold_ordinal (doc : Doc) (i : Nat) :
    ∀ (js : List Nat) (s : List Aspect × Bool),
      (∀ j ∈ js, i < j ∧ j < s.1.length) → js.Nodup →
      (js.foldl (fun t j => disambPair doc t i j) s).1.length = s.1.length ∧
      (∀ p, ((js.foldl (fun t j => disambPair doc t i j) s).1.getD p
          (mkAspect doc 0 0 none none)).text =
        (s.1.getD p (mkAspect doc 0 0 none none)).text) ∧
      (∀ p,
        ((js.foldl (fun t j => disambPair doc t i j) s).1.getD p
            (mkAspect doc 0 0 none none)).ordinal =
          if p ∈ js ∧ (s.1.getD p (mkAspect doc 0 0 none none)).text =
              (s.1.getD i (mkAspect doc 0 0 none none)).text
          then (s.1.getD i (mkAspect doc 0 0 none none)).ordinal + 1
          else (s.1.getD p (mkAspect doc 0 0 none none)).ordinal) := by
  intro js
  induction js with
  | nil =>
    intro s _ _
    refine ⟨rfl, fun p => rfl, fun p => ?_⟩
    rw [if_neg (fun hc => by cases hc.1)]
    rfl
  | cons j js ih =>
    intro s hbound hnodup
    have hj0 := hbound j (List.mem_cons_self j js)
    have hjne : j ∉ js := (List.nodup_cons.1 hnodup).1
    have hlen := disambPair_length doc s i j
    have htextp := fun p => disambPair_text doc s i j (Nat.ne_of_lt hj0.1) p
    have hordp := fun p => disambPair_ordinal doc s i j hj0.1 hj0.2 p
    obtain ⟨ih1, ih2, ih3⟩ := ih (disambPair doc s i j)
      (fun q hq => ⟨(hbound q (List.mem_cons_of_mem j hq)).1,
        by rw [hlen]; exact (hbound q (List.mem_cons_of_mem j hq)).2⟩)
      (List.nodup_cons.1 hnodup).2
    rw [List.foldl_cons]
    refine ⟨ih1.trans hlen, fun p => (ih2 p).trans (htextp p), fun p => ?_⟩
    rw [ih3 p, htextp p, htextp i]
    have hoi : ((disambPair doc s i j).1.getD i (mkAspect doc 0 0 none none)).ordinal =
        (s.1.getD i (mkAspect doc 0 0 none none)).ordinal := by
      rw [hordp i, if_neg (fun hc => Nat.ne_of_lt hj0.1 hc.1)]
    rw [hoi]
    by_cases hmem : p ∈ js
    · have hpj : p ≠ j := fun he => hjne (he ▸ hmem)
      have hop : ((disambPair doc s i j).1.getD p (mkAspect doc 0 0 none none)).ordinal =
          (s.1.getD p (mkAspect doc 0 0 none none)).ordinal := by
        rw [hordp p, if_neg (fun hc => hpj hc.1)]
      rw [hop]
      by_cases hmatch : (s.1.getD p (mkAspect doc 0 0 none none)).text =
          (s.1.getD i (mkAspect doc 0 0 none none)).text
      · rw [if_pos ⟨hmem, hmatch⟩, if_pos ⟨List.mem_cons_of_mem j hmem, hmatch⟩]
      · rw [if_neg (fun hc => hmatch hc.2), if_neg (fun hc => hmatch hc.2)]
    · by_cases hpj : p = j
      · subst hpj
        rw [if_neg (fun hc => hmem hc.1), hordp p]
        by_cases hmatch : (s.1.getD i (mkAspect doc 0 0 none none)).text =
            (s.1.getD p (mkAspect doc 0 0 none none)).text
        · rw [if_pos ⟨rfl, hmatch⟩, if_pos ⟨List.mem_cons_self p js, hmatch.symm⟩]
        · rw [if_neg (fun hc => hmatch hc.2), if_neg (fun hc => hmatch hc.2.symm)]
      · have hop : ((disambPair doc s i j).1.getD p (mkAspect doc 0 0 none none)).ordinal =
            (s.1.getD p (mkAspect doc 0 0 none none)).ordinal := by
          rw [hordp p, if_neg (fun hc => hpj hc.1)]
        rw [if_neg (fun hc => hmem hc.1), hop]
        have hnotin : p ∉ j :: js := by
          intro hc
          rcases List.mem_cons.1 hc with h | h
          · exact hpj h
          · exact hmem h
        rw [if_neg (fun hc => hnotin hc.1)]

end AspectExtractor

namespace AspectExtractor

theorem disambiguate_eq_upTo (doc : Doc) (as : List Aspect) :
    disambiguate doc as = disambUpTo doc as as.length := rfl

theorem blockFold_pairs (doc : Doc) (i : Nat) (js : List Nat)
    (s : List Aspect × Bool) :
    ((js.map fun j => ((i : Nat), j)).foldl (fun t p => disambPair doc t p.1 p.2) s) =
      js.foldl (fun t j => disambPair doc t i j) s := by
  rw [List.foldl_map]

theorem disambUpTo_succ (doc : Doc) (as : List Aspect) (m : Nat) :
    disambUpTo doc as (m + 1) =
      ((List.range as.length).filter fun j => m < j).foldl
        (fun t j => disambPair doc t m j) (disambUpTo doc as m) := by
  unfold disambUpTo
  rw [List.range_succ, List.flatMap_append, List.foldl_append]
  rw [show (([m] : List Nat).flatMap fun i =>
      ((List.range as.length).filter fun j => i < j).map fun j => (i, j)) =
      ((List.range as.length).filter fun j => m < j).map fun j => (m, j) by simp]
  rw [blockFold_pairs]

/-- Along the outer loop: lengths and texts never change, and after the
blocks for `i < m` the ordinal at `p` counts the earlier equal-text
occurrences with index below `min m p`. -/
theorem disambUpTo_ordinal (doc : Doc) (as : List Aspect)
    (h0 : ∀ a ∈ as, a.ordinal = 0) :
    ∀ m : Nat, m ≤ as.length →
      (disambUpTo doc as m).1.length = as.length ∧
      (∀ p, ((disambUpTo doc as m).1.getD p (mkAspect doc 0 0 none none)).text =
        (as.getD p (mkAspect doc 0 0 none none)).text) ∧
      (∀ p, p < as.length →
        ((disambUpTo doc as m).1.getD p (mkAspect doc 0 0 none none)).ordinal =
          ((List.range (min m p)).filter fun q =>
            (as.getD q (mkAspect doc 0 0 none none)).text =
              (as.getD p (mkAspect doc 0 0 none none)).text).length) := by
  intro m
  induction m with
  | zero =>
    intro _
    refine ⟨rfl, fun p => rfl, fun p hp => ?_⟩
    show (as.getD p (mkAspect doc 0 0 none none)).ordinal = _
    rw [List.getD_eq_getElem as _ hp]
    rw [h0 _ (List.getElem_mem hp)]
    simp
  | succ m ih =>
    intro hm1
    have hmlt : m < as.length := by omega
    obtain ⟨ih1, ih2, ih3⟩ := ih (by omega)
    rw [disambUpTo_succ]
    have hb := blockFold_ordinal doc m ((List.range as.length).filter fun j => m < j)
      (disambUpTo doc as m)
      (fun j hj => by
        rw [List.mem_filter, List.mem_range] at hj
        exact ⟨by simpa using hj.2, by rw [ih1]; exact hj.1⟩)
      (List.Nodup.filter _ (List.nodup_range _))
    obtain ⟨b1, b2, b3⟩ := hb
    refine ⟨b1.trans ih1, fun p => (b2 p).trans (ih2 p), fun p hp => ?_⟩
    rw [b3 p, ih2 p, ih2 m]
    have hom : ((disambUpTo doc as m).1.getD m (mkAspect doc 0 0 none none)).ordinal =
        ((List.range m).filter fun q =>
          (as.getD q (mkAspect doc 0 0 none none)).text =
            (as.getD m (mkAspect doc 0 0 none none)).text).length := by
      rw [ih3 m hmlt, Nat.min_self]
    have hop : ((disambUpTo doc as m).1.getD p (mkAspect doc 0 0 none none)).ordinal =
        ((List.range (min m p)).filter fun q =>
          (as.getD q (mkAspect doc 0 0 none none)).text =
            (as.getD p (mkAspect doc 0 0 none none)).text).length := ih3 p hp
    by_cases hmp : m < p
    · have hpmem : p ∈ (List.range as.length).filter fun j => m < j :=
        List.mem_filter.2 ⟨List.mem_range.2 hp, by simpa using hmp⟩
      by_cases hmatch : (as.getD p (mkAspect doc 0 0 none none)).text =
          (as.getD m (mkAspect doc 0 0 none none)).text
      · rw [if_pos ⟨hpmem, hmatch⟩, hom]
        have hmin : min (m + 1) p = m + 1 := by omega
        rw [hmin, List.range_succ, List.filter_append, List.length_append,
          List.filter_singleton]
        rw [show (decide ((as.getD m (mkAspect doc 0 0 none none)).text =
            (as.getD p (mkAspect doc 0 0 none none)).text)) = true by
          rw [hmatch]; simp]
        rw [show ((List.range m).filter fun q =>
            (as.getD q (mkAspect doc 0 0 none none)).text =
              (as.getD p (mkAspect doc 0 0 none none)).text) =
            ((List.range m).filter fun q =>
            (as.getD q (mkAspect doc 0 0 none none)).text =
              (as.getD m (mkAspect doc 0 0 none none)).text) by
          refine List.filter_congr ?_
          intro q _
          rw [hmatch]]
        rfl
      · rw [if_neg (fun hc => hmatch hc.2), hop]
        have hmin1 : min m p = m := by omega
        have hmin2 : min (m + 1) p = m + 1 := by omega
        rw [hmin1, hmin2, List.range_succ, List.filter_append, List.length_append,
          List.filter_singleton]
        rw [show (decide ((as.getD m (mkAspect doc 0 0 none none)).text =
            (as.getD p (mkAspect doc 0 0 none none)).text)) = false by
          exact decide_eq_false (fun hc => hmatch hc.symm)]
        rfl
    · have hpnot : p ∉ (List.range as.length).filter fun j => m < j := by
        intro hc
        rw [List.mem_filter] at hc
        exact hmp (by simpa using hc.2)
      rw [if_neg (fun hc => hpnot hc.1), hop]
      have hmin : min (m + 1) p = min m p := by omega
      rw [hmin]

end AspectExtractor

/-- **C10.** Whenever the disambiguator runs on a sentence's aspect list
(all ordinals zero, as the scanner and merger produce them — second
conjunct), the `k`-th occurrence (0-based, in list order) of each reduced
text ends with ordinal exactly `k`: the final ordinal at position `p`
equals the number of earlier positions with the same reduced text (so an
aspect whose reduced text is unique keeps ordinal `0`). -/
theorem disambiguator_ordinals :
    (∀ (doc : Doc) (as : List Aspect), (∀ a ∈ as, a.ordinal = 0) →
      ∀ p, p < as.length →
        ((AspectExtractor.disambiguate doc as).1.getD p
            (mkAspect doc 0 0 none none)).ordinal =
          ((List.range p).filter fun q =>
            (as.getD q (mkAspect doc 0 0 none none)).text =
              (as.getD p (mkAspect doc 0 0 none none)).text).length) ∧
    (∀ doc : Doc, ∀ a ∈ AspectExtractor.mergePass doc (AspectExtractor.scanSentence doc),
      a.ordinal = 0) := by
  constructor
  · intro doc as h0 p hp
    rw [AspectExtractor.disambiguate_eq_upTo]
    obtain ⟨_, _, h3⟩ := AspectExtractor.disambUpTo_ordinal doc as h0 as.length (le_refl _)
    rw [h3 p hp, Nat.min_eq_right (le_of_lt hp)]
  · intro doc a ha
    rw [AspectExtractor.mergePass_eq_mergeAll] at ha
    refine AspectExtractor.mergeAll_ordinal0 doc _ ?_ a ha
    exact AspectExtractor.scanAux_ordinal0 doc doc.length doc.length [] (by simp)

/-- Witness for `disambiguator_ordinals`: on the two-aspect list of the
sentence `x x`, the second occurrence of `"x"` ends with ordinal `1`. -/
theorem disambiguator_ordinals_witness :
    ((AspectExtractor.disambiguate dPair asPair).1.getD 1
        (mkAspect dPair 0 0 none none)).ordinal =
      ((List.range 1).filter fun q =>
        (asPair.getD q (mkAspect dPair 0 0 none none)).text =
          (asPair.getD 1 (mkAspect dPair 0 0 none none)).text).length :=
  disambiguator_ordinals.1 dPair asPair (by decide) 1 (by decide)
